import Mathlib

set_option linter.unusedSectionVars false

/-!
Verification of the fixed-capacity LRU cache repository.

The repository contains two implementations of `LRUCache`:

* `src/main.py` — a variant backed by a single insertion-ordered dictionary
  (Python `dict`); recency is encoded by position in the dictionary's
  insertion order (oldest first).
* `src/dll_lru_cache.py` — a variant backed by an index dictionary mapping
  keys to nodes of an explicit doubly linked list (`_DLList` of
  `_DLListNode`, each node carrying an `_Item`).

Both are embedded below.  The Python dictionary is modelled as an association
list preserving insertion order (`lookupA`, `setA`, `removeA` mirror
`d.get(k)` / `d[k] = v` / `del d[k]` exactly, including the fact that
assignment to an existing key keeps its position).  The Python object heap of
linked-list nodes is modelled as an association list from node ids to node
records; node ids play the role of object identity (`is` comparisons).
Errors are explicit `Except` values; Python's `_MISSING` default sentinel is
modelled as `Option`.
-/

/-! ### Association-list primitives modelling Python dictionaries -/

section Assoc

variable {α β : Type} [DecidableEq α]

/-- `lookupA d a` models `d.get(a)` on an insertion-ordered dictionary. -/
def lookupA : List (α × β) → α → Option β
  | [], _ => none
  | (x, y) :: rest, a => if x = a then some y else lookupA rest a

/-- `updateA d a f` applies `f` to the value stored at key `a` (first
occurrence), leaving the rest of the dictionary unchanged.  It models an
in-place mutation of the object stored at `a`. -/
def updateA : List (α × β) → α → (β → β) → List (α × β)
  | [], _, _ => []
  | (x, y) :: rest, a, f => if x = a then (x, f y) :: rest else (x, y) :: updateA rest a f

/-- `removeA d a` models `del d[a]` / `d.pop(a)`: it removes the entry with
key `a`, keeping the order of the remaining entries. -/
def removeA : List (α × β) → α → List (α × β)
  | [], _ => []
  | (x, y) :: rest, a => if x = a then rest else (x, y) :: removeA rest a

/-- `setA d a b` models `d[a] = b` on a Python dictionary: if `a` is present
its value is replaced in place (insertion-order position preserved),
otherwise the new entry is appended at the end. -/
def setA : List (α × β) → α → β → List (α × β)
  | [], a, b => [(a, b)]
  | (x, y) :: rest, a, b => if x = a then (x, b) :: rest else (x, y) :: setA rest a b

end Assoc

/-! ### Shared error model -/

/-- Model of the Python value passed to the constructor: either an `int`
(`isinstance(x, int)` holds) or any non-integer object (including `None`). -/
inductive PyVal where
  | int (n : Int)
  | nonInt
deriving DecidableEq

/-- Errors the constructors raise: `TypeError` for a non-integer capacity,
`ValueError` for a non-positive one (the spec's `InvalidCapacityError`). -/
inductive InitError where
  | typeError
  | valueError
deriving DecidableEq

/-- Runtime errors of the cache operations: `KeyError` (the spec's
`KeyNotFoundError`), `_DLList.IsEmptyError` (the spec's `EmptyError`),
`StopIteration` from `next(iter(d))` on an empty dictionary, and an
attribute access on an invalid node reference. -/
inductive PyError where
  | keyError
  | isEmptyError
  | stopIteration
  | attributeError
deriving DecidableEq

/-- One public cache operation, for running call sequences. -/
inductive CacheOp (K V : Type) where
  | get (key : K) (default : Option V)
  | put (key : K) (value : V)
deriving DecidableEq

/-! ### The `src/main.py` variant -/

namespace Main

variable {K V : Type} [DecidableEq K]

/-- State of `main.py`'s `LRUCache`: the validated `_max_size` and the
insertion-ordered `_dict` (key to value). -/
structure LRUCache (K V : Type) where
  max_size : Int
  dict : List (K × V)
deriving DecidableEq

/-- `LRUCache.__init__` of `main.py`: raise `TypeError` unless the argument
is an `int`, raise `ValueError` unless it is positive, else store it and an
empty dictionary. -/
def LRUCache.init (max_size : PyVal) : Except InitError (LRUCache K V) :=
  match max_size with
  | .nonInt => .error .typeError
  | .int n =>
    if n ≤ 0 then .error .valueError
    else .ok { max_size := n, dict := [] }

/-- The `full` property: `len(self._dict) >= self._max_size`. -/
def LRUCache.full (c : LRUCache K V) : Bool := (c.dict.length : Int) ≥ c.max_size

/-- `LRUCache.get` of `main.py`.  On a hit the entry is popped and
re-inserted (hence moved to the most-recent end); on a miss the default is
returned when supplied, else `KeyError` is raised. -/
def LRUCache.get (c : LRUCache K V) (key : K) (default_value : Option V := none) :
    Except PyError (V × LRUCache K V) :=
  match lookupA c.dict key with
  | some v =>
    -- value = self._dict.pop(key); self._dict[key] = value
    .ok (v, { c with dict := setA (removeA c.dict key) key v })
  | none =>
    match default_value with
    | none => .error .keyError
    | some d => .ok (d, c)

/-- `LRUCache.put` of `main.py`.  Note that the `full` check comes first and
does not test whether `key` is already present, and that `self._dict[key] =
value` on a present key keeps its insertion-order position. -/
def LRUCache.put (c : LRUCache K V) (key : K) (value : V) :
    Except PyError (LRUCache K V) :=
  if c.full then
    match c.dict.head? with
    | none => .error .stopIteration  -- next(iter({})) would raise
    | some (lru_key, _) =>
      -- lru_key = next(iter(self._dict)); self._dict.pop(lru_key)
      .ok { c with dict := setA (removeA c.dict lru_key) key value }
  else
    .ok { c with dict := setA c.dict key value }

/-- Run one public operation, discarding any returned value. -/
def step (c : LRUCache K V) : CacheOp K V → Except PyError (LRUCache K V)
  | .get k d => (LRUCache.get c k d).map (·.2)
  | .put k v => LRUCache.put c k v

/-- Run a sequence of public operations. -/
def run (c : LRUCache K V) : List (CacheOp K V) → Except PyError (LRUCache K V)
  | [] => .ok c
  | o :: os =>
    match step c o with
    | .error e => .error e
    | .ok c' => run c' os

/-- The dictionary contents after constructing with the given capacity and
running the given operations (`none` if anything raised). -/
def dictAfter (cap : Int) (ops : List (CacheOp Nat Nat)) : Option (List (Nat × Nat)) :=
  match LRUCache.init (K := Nat) (V := Nat) (.int cap) with
  | .error _ => none
  | .ok c0 =>
    match run c0 ops with
    | .error _ => none
    | .ok c => some c.dict

/-- The key currently at the most-recently-used end of the dictionary
(insertion order: oldest first, so the most recent key is the last). -/
def lastKeyAfter (cap : Int) (ops : List (CacheOp Nat Nat)) : Option Nat :=
  match dictAfter cap ops with
  | none => none
  | some d => (d.getLast?).map Prod.fst

/-- The value returned by a final `get key default` after running `ops`. -/
def valueAfter (cap : Int) (ops : List (CacheOp Nat Nat)) (key : Nat)
    (default : Option Nat) : Option Nat :=
  match LRUCache.init (K := Nat) (V := Nat) (.int cap) with
  | .error _ => none
  | .ok c0 =>
    match run c0 ops with
    | .error _ => none
    | .ok c =>
      match LRUCache.get c key default with
      | .error _ => none
      | .ok (v, _) => some v

end Main

/-! ### The `src/dll_lru_cache.py` variant -/

namespace Dll

variable {K V : Type} [DecidableEq K]

/-- `_Item`: one cache entry, holding a key and a value.  It is the payload
(`data`) of a linked-list node. -/
structure Item (K V : Type) where
  key : K
  value : V
deriving DecidableEq

/-- `_DLListNode`: a doubly linked list node, with `data` plus optional
references (`_prv`, `_nxt`) to neighbouring nodes.  References are modelled
as node ids in the heap below. -/
structure DLListNode (K V : Type) where
  data : Item K V
  prv : Option Nat
  nxt : Option Nat
deriving DecidableEq

/-- The Python object heap holding the linked-list nodes, addressed by node
id.  Node ids model object identity (`is` comparisons). -/
abbrev Heap (K V : Type) := List (Nat × DLListNode K V)

/-- Conditional neighbour mutation `target._nxt = X` (a no-op when the
`target` reference is absent). -/
def setNxt (h : Heap K V) (target X : Option Nat) : Heap K V :=
  match target with
  | none => h
  | some p => updateA h p (fun x => { x with nxt := X })

/-- Conditional neighbour mutation `target._prv = X` (a no-op when the
`target` reference is absent). -/
def setPrv (h : Heap K V) (target X : Option Nat) : Heap K V :=
  match target with
  | none => h
  | some q => updateA h q (fun x => { x with prv := X })

/-- `_DLListNode.eject`: sew the list back together around node `n` and
clear `n`'s own links.  Mirrors the three mutation steps of the source:
`self._prv._nxt = self._nxt` (when `_prv` is set), `self._nxt._prv =
self._prv` (when `_nxt` is set), then `self._prv = self._nxt = None`. -/
def nodeEject (h : Heap K V) (n : Nat) : Heap K V :=
  match lookupA h n with
  | none => h  -- an invalid reference; never reached by the cache
  | some nd =>
    updateA (setPrv (setNxt h nd.prv nd.nxt) nd.nxt nd.prv) n
      (fun x => { x with prv := none, nxt := none })

/-- `_DLListNode.insert_between`: link node `n` between the nodes `prv` and
`nxt` (either may be absent), mirroring `prv._nxt = self` (when set),
`nxt._prv = self` (when set), then `self._prv, self._nxt = prv, nxt`. -/
def insertBetween (h : Heap K V) (n : Nat) (prv nxt : Option Nat) : Heap K V :=
  updateA (setPrv (setNxt h prv (some n)) nxt (some n)) n
    (fun x => { x with prv := prv, nxt := nxt })

/-- `_DLList`: front and back references, together with the heap of nodes
the list lives in. -/
structure DLList (K V : Type) where
  heap : Heap K V
  front : Option Nat
  back : Option Nat
deriving DecidableEq

/-- `_DLList.__init__`: an empty list over an empty heap. -/
def DLList.emptyL : DLList K V := { heap := [], front := none, back := none }

/-- `_DLList.empty`: `self._back is None`. -/
def DLList.emptyB (l : DLList K V) : Bool := l.back.isNone

/-- `_DLList.push_front`: `self._front = node.insert_between(None,
self._front)`, then `self._back = node` if the list was empty. -/
def DLList.push_front (l : DLList K V) (n : Nat) : DLList K V :=
  { heap := insertBetween l.heap n none l.front
    front := some n
    back := if l.back.isNone then some n else l.back }

/-- `_DLList.push_back`, symmetric to `push_front`. -/
def DLList.push_back (l : DLList K V) (n : Nat) : DLList K V :=
  { heap := insertBetween l.heap n l.back none
    front := if l.front.isNone then some n else l.front
    back := some n }

/-- `_DLList.eject`: update the front/back references when `n` is a
boundary node (reading `node.nxt` / `node.prv` before the node is ejected),
then eject the node itself. -/
def DLList.eject (l : DLList K V) (n : Nat) : DLList K V :=
  { heap := nodeEject l.heap n
    front := if l.front = some n then (lookupA l.heap n).bind (·.nxt) else l.front
    back := if l.back = some n then (lookupA l.heap n).bind (·.prv) else l.back }

/-- `_DLList.pop_front`: raise `IsEmptyError` when `self._front is None`,
else eject and return the front node. -/
def DLList.pop_front (l : DLList K V) : Except PyError (Nat × DLList K V) :=
  match l.front with
  | none => .error .isEmptyError
  | some n => .ok (n, l.eject n)

/-- `_DLList.pop_back`: raise `IsEmptyError` when `self._back is None`,
else eject and return the back node. -/
def DLList.pop_back (l : DLList K V) : Except PyError (Nat × DLList K V) :=
  match l.back with
  | none => .error .isEmptyError
  | some n => .ok (n, l.eject n)

/-- `_DLList.move_to_front`: no-op when `node is self._front`, else eject
the node and push it to the front. -/
def DLList.move_to_front (l : DLList K V) (n : Nat) : DLList K V :=
  if l.front = some n then l
  else (l.eject n).push_front n

/-- `_DLList.move_to_back`, symmetric to `move_to_front`. -/
def DLList.move_to_back (l : DLList K V) (n : Nat) : DLList K V :=
  if l.back = some n then l
  else (l.eject n).push_back n

/-- State of `dll_lru_cache.py`'s `LRUCache`: the validated `_max_size`, the
index `_dict` (key to node id), the `_dllist`, and the allocator for fresh
node ids (modelling Python's allocation of new node objects). -/
structure LRUCache (K V : Type) where
  max_size : Int
  dict : List (K × Nat)
  dllist : DLList K V
  nextId : Nat
deriving DecidableEq

/-- `LRUCache.__init__` of `dll_lru_cache.py`: the same capacity validation
as `main.py` (the default argument `None` is a non-integer and raises
`TypeError`), then an empty index and an empty list. -/
def LRUCache.init (max_size : PyVal) : Except InitError (LRUCache K V) :=
  match max_size with
  | .nonInt => .error .typeError
  | .int n =>
    if n ≤ 0 then .error .valueError
    else .ok { max_size := n, dict := [], dllist := DLList.emptyL, nextId := 0 }

/-- The `full` property: `self._max_size is not None and len(self._dict) >=
self._max_size`.  After a successful construction `_max_size` is always an
integer, so the `is not None` conjunct holds. -/
def LRUCache.full (c : LRUCache K V) : Bool := (c.dict.length : Int) ≥ c.max_size

/-- `LRUCache.get` of `dll_lru_cache.py`: resolve the key through the index;
on a hit, move the node to the front and return `node.data.value`; on a
miss, return the supplied default or raise `KeyError`. -/
def LRUCache.get (c : LRUCache K V) (key : K) (default_value : Option V := none) :
    Except PyError (V × LRUCache K V) :=
  match lookupA c.dict key with
  | some n =>
    let l := c.dllist.move_to_front n
    match lookupA l.heap n with
    | some nd => .ok (nd.data.value, { c with dllist := l })
    | none => .error .attributeError  -- invalid node reference; never reached
  | none =>
    match default_value with
    | some d => .ok (d, c)
    | none => .error .keyError

/-- The eviction block of `put`:
`if self.full: lru_node = self._dllist.pop_back(); del self._dict[lru_node.data.key]`.
On a raise the error propagates out of `put`; `del` on an absent key would
raise `KeyError`, and reading `.data` through an invalid node reference
would be an attribute error (neither is reachable, see the invariants). -/
def LRUCache.evictIfFull (c : LRUCache K V) : Except PyError (LRUCache K V) :=
  if c.full then
    match c.dllist.pop_back with
    | .error e => .error e
    | .ok (m, l') =>
      match lookupA l'.heap m with
      | none => .error .attributeError
      | some lru_node =>
        match lookupA c.dict lru_node.data.key with
        | none => .error .keyError
        | some _ =>
          .ok { c with dict := removeA c.dict lru_node.data.key, dllist := l' }
  else .ok c

/-- `LRUCache.put` of `dll_lru_cache.py`.  Hit: move the node to the front
and replace `node.data.value`.  Miss: run the eviction block, then allocate
a fresh node holding `_Item(key, value)`, store it in the index and push it
to the front. -/
def LRUCache.put (c : LRUCache K V) (key : K) (value : V) :
    Except PyError (LRUCache K V) :=
  match lookupA c.dict key with
  | some n =>
    let l := c.dllist.move_to_front n
    let h2 := updateA l.heap n (fun nd => { nd with data := { nd.data with value := value } })
    .ok { c with dllist := { l with heap := h2 } }
  | none =>
    match c.evictIfFull with
    | .error e => .error e
    | .ok c1 =>
      let nid := c1.nextId
      let node : DLListNode K V := { data := { key := key, value := value }, prv := none, nxt := none }
      let l2 : DLList K V := { c1.dllist with heap := c1.dllist.heap ++ [(nid, node)] }
      .ok { c1 with
        dict := setA c1.dict key nid
        dllist := l2.push_front nid
        nextId := nid + 1 }

/-- Run one public operation, discarding any returned value. -/
def step (c : LRUCache K V) : CacheOp K V → Except PyError (LRUCache K V)
  | .get k d => (LRUCache.get c k d).map (·.2)
  | .put k v => LRUCache.put c k v

/-- Run a sequence of public operations. -/
def run (c : LRUCache K V) : List (CacheOp K V) → Except PyError (LRUCache K V)
  | [] => .ok c
  | o :: os =>
    match step c o with
    | .error e => .error e
    | .ok c' => run c' os

/-- The list of index keys after constructing with the given capacity and
running the given operations (`none` if anything raised). -/
def keysAfter (cap : Int) (ops : List (CacheOp Nat Nat)) : Option (List Nat) :=
  match LRUCache.init (K := Nat) (V := Nat) (.int cap) with
  | .error _ => none
  | .ok c0 =>
    match run c0 ops with
    | .error _ => none
    | .ok c => some (c.dict.map Prod.fst)

/-- The key held by the front (most-recently-used) node after running the
given operations. -/
def frontKeyAfter (cap : Int) (ops : List (CacheOp Nat Nat)) : Option Nat :=
  match LRUCache.init (K := Nat) (V := Nat) (.int cap) with
  | .error _ => none
  | .ok c0 =>
    match run c0 ops with
    | .error _ => none
    | .ok c =>
      match c.dllist.front with
      | none => none
      | some n => (lookupA c.dllist.heap n).map (·.data.key)

/-- The value returned by a final `get key default` after running `ops`. -/
def valueAfter (cap : Int) (ops : List (CacheOp Nat Nat)) (key : Nat)
    (default : Option Nat) : Option Nat :=
  match LRUCache.init (K := Nat) (V := Nat) (.int cap) with
  | .error _ => none
  | .ok c0 =>
    match run c0 ops with
    | .error _ => none
    | .ok c =>
      match LRUCache.get c key default with
      | .error _ => none
      | .ok (v, _) => some v

end Dll

/-! ### Representation predicates and reachability -/

namespace Dll

variable {K V : Type} [DecidableEq K]

/-- The head of a list of node ids, or a fallback reference. -/
def headOr (l : List Nat) (d : Option Nat) : Option Nat :=
  match l with
  | [] => d
  | n :: _ => some n

/-- The last element of a list of node ids, or a fallback reference. -/
def lastOr : List Nat → Option Nat → Option Nat
  | [], d => d
  | n :: rest, _ => lastOr rest (some n)

/-- `chainSeg h prev order next` says the node ids in `order` form a
doubly linked segment in heap `h`: the first node's `prv` is `prev`,
consecutive nodes point at each other, and the last node's `nxt` is
`next`. -/
def chainSeg (h : Heap K V) : Option Nat → List Nat → Option Nat → Prop
  | _, [], _ => True
  | prev, n :: rest, next =>
    ∃ nd, lookupA h n = some nd ∧ nd.prv = prev ∧ nd.nxt = headOr rest next ∧
      chainSeg h (some n) rest next

/-- `ListRep l order` says the linked list `l` holds exactly the nodes
`order`, linked front to back in that sequence. -/
structure ListRep (l : DLList K V) (order : List Nat) : Prop where
  chain_ok : chainSeg l.heap none order none
  front_ok : l.front = headOr order none
  back_ok : l.back = lastOr order none
  nodup : order.Nodup

/-- The cache invariant of the list variant: the linked list is well formed
over some recency order, the index holds exactly the listed nodes with
distinct keys, every index entry resolves to the node holding its key, all
allocated node ids are below the allocator counter, and the entry count is
bounded by the (positive) capacity. -/
structure CacheInv (c : LRUCache K V) (order : List Nat) : Prop where
  rep : ListRep c.dllist order
  dict_perm : (c.dict.map Prod.snd).Perm order
  dict_keys_nodup : (c.dict.map Prod.fst).Nodup
  dict_resolve : ∀ k n, (k, n) ∈ c.dict →
    ∃ nd, lookupA c.dllist.heap n = some nd ∧ nd.data.key = k
  ids_lt : ∀ i ∈ c.dllist.heap.map Prod.fst, i < c.nextId
  size_ok : (c.dict.length : Int) ≤ c.max_size
  max_pos : 0 < c.max_size

/-- Cache states reachable through the public interface: a successful
construction followed by any successful `get`/`put` calls (a raising call
leaves the state unchanged, so it contributes no new states). -/
inductive Reachable : LRUCache K V → Prop where
  | init (n : Int) (c : LRUCache K V)
      (h : LRUCache.init (.int n) = .ok c) : Reachable c
  | getStep (c : LRUCache K V) (k : K) (d : Option V) (v : V) (c' : LRUCache K V)
      (hc : Reachable c) (h : LRUCache.get c k d = .ok (v, c')) : Reachable c'
  | putStep (c : LRUCache K V) (k : K) (v : V) (c' : LRUCache K V)
      (hc : Reachable c) (h : LRUCache.put c k v = .ok c') : Reachable c'

end Dll

namespace Main

variable {K V : Type} [DecidableEq K]

/-- The invariant of the `main.py` variant: distinct keys and an entry
count bounded by the (positive) capacity. -/
def Inv (c : LRUCache K V) : Prop :=
  (c.dict.map Prod.fst).Nodup ∧ (c.dict.length : Int) ≤ c.max_size ∧ 0 < c.max_size

/-- Cache states of the `main.py` variant reachable through the public
interface. -/
inductive Reachable : LRUCache K V → Prop where
  | init (n : Int) (c : LRUCache K V)
      (h : LRUCache.init (.int n) = .ok c) : Reachable c
  | getStep (c : LRUCache K V) (k : K) (d : Option V) (v : V) (c' : LRUCache K V)
      (hc : Reachable c) (h : LRUCache.get c k d = .ok (v, c')) : Reachable c'
  | putStep (c : LRUCache K V) (k : K) (v : V) (c' : LRUCache K V)
      (hc : Reachable c) (h : LRUCache.put c k v = .ok c') : Reachable c'

end Main

/-- A freshly constructed list-variant cache of capacity 2. -/
def sampleD0 : Dll.LRUCache Nat Nat :=
  { max_size := 2, dict := [], dllist := Dll.DLList.emptyL, nextId := 0 }

/-- The list-variant cache of capacity 1 after `put(1, 10)`: full. -/
def sampleD1 : Dll.LRUCache Nat Nat :=
  { max_size := 1, dict := [(1, 0)]
    dllist := { heap := [(0, ⟨⟨1, 10⟩, none, none⟩)], front := some 0, back := some 0 }
    nextId := 1 }

/-- A freshly constructed `main.py` cache of capacity 2. -/
def sampleM0 : Main.LRUCache Nat Nat := { max_size := 2, dict := [] }

/-- The `main.py` cache of capacity 2 after `put(1, 10)`. -/
def sampleM1 : Main.LRUCache Nat Nat := { max_size := 2, dict := [(1, 10)] }

/-- The list-variant cache of capacity 2 after `put(1, 10)`: not full. -/
def sampleD2 : Dll.LRUCache Nat Nat :=
  { max_size := 2, dict := [(1, 0)]
    dllist := { heap := [(0, ⟨⟨1, 10⟩, none, none⟩)], front := some 0, back := some 0 }
    nextId := 1 }

/-! ### C1–C4: divergence of the `main.py` variant

`main.py`'s `put` checks `full` before checking whether the key is already
present, and `self._dict[key] = value` on a present key keeps the key's
insertion-order position.  Consequently a `put` on an already-present key
can evict an unrelated entry (when full) and never refreshes the key's
recency (when not full).  The theorems below evaluate both implementations
on concrete call sequences exhibiting this. -/

/-- C1: the claim says the entry evicted by a `put` on a new key while full
is the least recently accessed one.  On capacity 3, after
`put 1 10; put 2 20; put 1 30; put 3 40`, key `2` is the least recently
accessed key (key `1` was re-accessed by the third `put`).  The next
`put 4 50` must therefore evict key `2`, and the list variant does; but
`main.py` evicts key `1` (the first key in dictionary insertion order,
which the third `put` failed to refresh), leaving `2`, `3`, `4`. -/
theorem c1_main_evicts_wrong_key :
    Main.dictAfter 3 [.put 1 10, .put 2 20, .put 1 30, .put 3 40, .put 4 50] =
      some [(2, 20), (3, 40), (4, 50)] ∧
    Dll.keysAfter 3 [.put 1 10, .put 2 20, .put 1 30, .put 3 40, .put 4 50] =
      some [1, 3, 4] := by
  constructor <;> rfl

/-- C2: the claim says a `put` on an already-present key replaces the value
in place, leaves the entry count unchanged and triggers no eviction.  On
capacity 2, after `put 1 10; put 2 20`, the update `put 2 30` leaves the
list variant with both keys, but `main.py` evicts key `1` and drops to a
single entry `[(2, 30)]`: an eviction and a count change on an update. -/
theorem c2_main_put_update_evicts :
    Main.dictAfter 2 [.put 1 10, .put 2 20, .put 2 30] = some [(2, 30)] ∧
    Dll.keysAfter 2 [.put 1 10, .put 2 20, .put 2 30] = some [1, 2] := by
  constructor <;> rfl

/-- C3: the claim says the two implementations return the same values on
every call sequence.  On capacity 2, after `put 1 10; put 2 20; put 2 30`,
a `get 1` with default `99` returns `99` from `main.py` (key `1` was
evicted by the update `put 2 30`) but returns the cached `10` from the
doubly-linked-list variant. -/
theorem c3_variants_not_equivalent :
    Main.valueAfter 2 [.put 1 10, .put 2 20, .put 2 30] 1 (some 99) = some 99 ∧
    Dll.valueAfter 2 [.put 1 10, .put 2 20, .put 2 30] 1 (some 99) = some 10 := by
  constructor <;> rfl

/-- C4: the claim says that immediately after `put k v` the key `k` is the
most-recently-used key.  On capacity 3, after `put 1 10; put 2 20` the
update `put 1 30` leaves `main.py`'s dictionary as `[(1, 30), (2, 20)]`:
key `1` keeps its old insertion-order position, so the most-recently-used
key (the last one) is `2`, not `1`.  The list variant correctly has key `1`
at the front. -/
theorem c4_main_put_not_mru :
    Main.dictAfter 3 [.put 1 10, .put 2 20, .put 1 30] = some [(1, 30), (2, 20)] ∧
    Main.lastKeyAfter 3 [.put 1 10, .put 2 20, .put 1 30] = some 2 ∧
    Dll.frontKeyAfter 3 [.put 1 10, .put 2 20, .put 1 30] = some 1 := by
  refine ⟨rfl, rfl, rfl⟩

/-! ### Lemmas about the dictionary model -/

section AssocLemmas

variable {α β : Type} [DecidableEq α]

theorem lookupA_updateA_self (l : List (α × β)) (a : α) (f : β → β) :
    lookupA (updateA l a f) a = (lookupA l a).map f := by
  induction l with
  | nil => rfl
  | cons p rest ih =>
    obtain ⟨x, y⟩ := p
    by_cases hx : x = a
    · simp [updateA, lookupA, hx]
    · simp [updateA, lookupA, hx, ih]

theorem lookupA_updateA_ne (l : List (α × β)) (a b : α) (f : β → β) (hab : b ≠ a) :
    lookupA (updateA l a f) b = lookupA l b := by
  induction l with
  | nil => rfl
  | cons p rest ih =>
    obtain ⟨x, y⟩ := p
    by_cases hx : x = a
    · subst hx
      have hxb : x ≠ b := fun h => hab h.symm
      simp [updateA, lookupA, hxb]
    · simp [updateA, lookupA, hx, ih]

theorem updateA_map_fst (l : List (α × β)) (a : α) (f : β → β) :
    (updateA l a f).map Prod.fst = l.map Prod.fst := by
  induction l with
  | nil => rfl
  | cons p rest ih =>
    obtain ⟨x, y⟩ := p
    by_cases hx : x = a <;> simp [updateA, hx, ih]

theorem lookupA_eq_none_iff (l : List (α × β)) (a : α) :
    lookupA l a = none ↔ a ∉ l.map Prod.fst := by
  induction l with
  | nil => simp [lookupA]
  | cons p rest ih =>
    obtain ⟨x, y⟩ := p
    by_cases hx : x = a
    · subst hx
      simp [lookupA]
    · simp [lookupA, hx, ih, Ne.symm hx]

theorem lookupA_append_left {l l' : List (α × β)} {a : α} {b : β}
    (h : lookupA l a = some b) : lookupA (l ++ l') a = some b := by
  induction l with
  | nil => simp [lookupA] at h
  | cons p rest ih =>
    obtain ⟨x, y⟩ := p
    by_cases hx : x = a
    · simpa [lookupA, hx] using h
    · simp only [lookupA, hx, if_false, List.cons_append] at h ⊢
      exact ih h

theorem lookupA_append_right {l : List (α × β)} {a : α} (l' : List (α × β))
    (h : lookupA l a = none) : lookupA (l ++ l') a = lookupA l' a := by
  induction l with
  | nil => rfl
  | cons p rest ih =>
    obtain ⟨x, y⟩ := p
    by_cases hx : x = a
    · simp [lookupA, hx] at h
    · simp only [lookupA, hx, if_false] at h
      simpa [lookupA, hx] using ih h

theorem lookupA_mem {l : List (α × β)} {a : α} {b : β}
    (h : lookupA l a = some b) : (a, b) ∈ l := by
  induction l with
  | nil => simp [lookupA] at h
  | cons p rest ih =>
    obtain ⟨x, y⟩ := p
    by_cases hx : x = a
    · subst hx
      simp [lookupA] at h
      simp [h]
    · simp only [lookupA, hx, if_false] at h
      exact List.mem_cons_of_mem _ (ih h)

theorem mem_lookupA {l : List (α × β)} {a : α} {b : β}
    (hn : (l.map Prod.fst).Nodup) (h : (a, b) ∈ l) : lookupA l a = some b := by
  induction l with
  | nil => simp at h
  | cons p rest ih =>
    obtain ⟨x, y⟩ := p
    simp only [List.map_cons, List.nodup_cons] at hn
    rcases List.mem_cons.mp h with h1 | h1
    · cases h1
      simp [lookupA]
    · have hxa : x ≠ a := by
        intro hh
        exact hn.1 (List.mem_map.mpr ⟨(a, b), h1, hh.symm⟩)
      simp only [lookupA, hxa, if_false]
      exact ih hn.2 h1

theorem removeA_map_fst (l : List (α × β)) (a : α) :
    (removeA l a).map Prod.fst = (l.map Prod.fst).erase a := by
  induction l with
  | nil => rfl
  | cons p rest ih =>
    obtain ⟨x, y⟩ := p
    by_cases hx : x = a <;> simp [removeA, hx, List.erase_cons, ih]

theorem removeA_perm {l : List (α × β)} {a : α} {b : β}
    (h : lookupA l a = some b) : l.Perm ((a, b) :: removeA l a) := by
  induction l with
  | nil => simp [lookupA] at h
  | cons p rest ih =>
    obtain ⟨x, y⟩ := p
    by_cases hx : x = a
    · subst hx
      simp only [lookupA, if_pos rfl] at h
      cases h
      simp [removeA]
    · simp only [lookupA, hx, if_false] at h
      simp only [removeA, hx, if_false]
      exact (List.Perm.cons _ (ih h)).trans (List.Perm.swap _ _ _)

theorem removeA_subset {l : List (α × β)} {a : α} {x : α × β}
    (h : x ∈ removeA l a) : x ∈ l := by
  induction l with
  | nil => simp [removeA] at h
  | cons p rest ih =>
    obtain ⟨u, v⟩ := p
    by_cases hu : u = a
    · simp only [removeA, hu, if_pos rfl] at h
      exact List.mem_cons_of_mem _ h
    · simp only [removeA, hu, if_false] at h
      rcases List.mem_cons.mp h with h1 | h1
      · exact h1 ▸ List.mem_cons_self _ _
      · exact List.mem_cons_of_mem _ (ih h1)

theorem removeA_length {l : List (α × β)} {a : α} {b : β}
    (h : lookupA l a = some b) : l.length = (removeA l a).length + 1 := by
  induction l with
  | nil => simp [lookupA] at h
  | cons p rest ih =>
    obtain ⟨x, y⟩ := p
    by_cases hx : x = a
    · simp [removeA, hx]
    · simp only [lookupA, hx, if_false] at h
      simp [removeA, hx, ih h]

theorem setA_absent {l : List (α × β)} {a : α} (b : β)
    (h : lookupA l a = none) : setA l a b = l ++ [(a, b)] := by
  induction l with
  | nil => rfl
  | cons p rest ih =>
    obtain ⟨x, y⟩ := p
    by_cases hx : x = a
    · simp [lookupA, hx] at h
    · simp only [lookupA, hx, if_false] at h
      simp [setA, hx, ih h]

theorem setA_map_fst_present {l : List (α × β)} {a : α} {b0 : β} (b : β)
    (h : lookupA l a = some b0) : (setA l a b).map Prod.fst = l.map Prod.fst := by
  induction l with
  | nil => simp [lookupA] at h
  | cons p rest ih =>
    obtain ⟨x, y⟩ := p
    by_cases hx : x = a
    · simp [setA, hx]
    · simp only [lookupA, hx, if_false] at h
      simp [setA, hx, ih h]

theorem setA_length_present {l : List (α × β)} {a : α} {b0 : β} (b : β)
    (h : lookupA l a = some b0) : (setA l a b).length = l.length := by
  have := congrArg List.length (setA_map_fst_present (l := l) b h)
  simpa using this

theorem lookupA_some_mem_fst {l : List (α × β)} {a : α} {b : β}
    (h : lookupA l a = some b) : a ∈ l.map Prod.fst := by
  by_contra hc
  rw [(lookupA_eq_none_iff _ _).mpr hc] at h
  cases h

theorem lookupA_removeA_self {l : List (α × β)} {a : α} (hn : (l.map Prod.fst).Nodup) :
    lookupA (removeA l a) a = none := by
  rw [lookupA_eq_none_iff, removeA_map_fst]
  intro hmem
  exact (hn.mem_erase_iff.mp hmem).1 rfl

end AssocLemmas

/-! ### Lemmas about the node heap and the chain predicate -/

namespace Dll

variable {K V : Type} [DecidableEq K]

theorem lookupA_updateA_data {h : Heap K V} {n : Nat} (f : DLListNode K V → DLListNode K V)
    (hf : ∀ x, (f x).data = x.data) (m : Nat) :
    (lookupA (updateA h n f) m).map (·.data) = (lookupA h m).map (·.data) := by
  by_cases hm : m = n
  · subst hm
    rw [lookupA_updateA_self]
    cases lookupA h m <;> simp [hf]
  · rw [lookupA_updateA_ne _ _ _ _ hm]

theorem lookupA_set_nxt_data (h : Heap K V) (n : Nat) (X : Option Nat) (m : Nat) :
    (lookupA (updateA h n (fun x => { x with nxt := X })) m).map (·.data) =
      (lookupA h m).map (·.data) :=
  lookupA_updateA_data (fun x => { x with nxt := X }) (fun _ => rfl) m

theorem lookupA_set_prv_data (h : Heap K V) (n : Nat) (X : Option Nat) (m : Nat) :
    (lookupA (updateA h n (fun x => { x with prv := X })) m).map (·.data) =
      (lookupA h m).map (·.data) :=
  lookupA_updateA_data (fun x => { x with prv := X }) (fun _ => rfl) m

theorem lookupA_set_links_data (h : Heap K V) (n : Nat) (X Y : Option Nat) (m : Nat) :
    (lookupA (updateA h n (fun x => { x with prv := X, nxt := Y })) m).map (·.data) =
      (lookupA h m).map (·.data) :=
  lookupA_updateA_data (fun x => { x with prv := X, nxt := Y }) (fun _ => rfl) m

theorem setNxt_data (h : Heap K V) (t X : Option Nat) (m : Nat) :
    (lookupA (setNxt h t X) m).map (·.data) = (lookupA h m).map (·.data) := by
  cases t with
  | none => rfl
  | some p => exact lookupA_set_nxt_data h p X m

theorem setPrv_data (h : Heap K V) (t X : Option Nat) (m : Nat) :
    (lookupA (setPrv h t X) m).map (·.data) = (lookupA h m).map (·.data) := by
  cases t with
  | none => rfl
  | some q => exact lookupA_set_prv_data h q X m

theorem setNxt_map_fst (h : Heap K V) (t X : Option Nat) :
    (setNxt h t X).map Prod.fst = h.map Prod.fst := by
  cases t with
  | none => rfl
  | some p => exact updateA_map_fst h p _

theorem setPrv_map_fst (h : Heap K V) (t X : Option Nat) :
    (setPrv h t X).map Prod.fst = h.map Prod.fst := by
  cases t with
  | none => rfl
  | some q => exact updateA_map_fst h q _

theorem nodeEject_of_lookup {h : Heap K V} {n : Nat} {nd : DLListNode K V}
    (hnd : lookupA h n = some nd) :
    nodeEject h n = updateA (setPrv (setNxt h nd.prv nd.nxt) nd.nxt nd.prv) n
      (fun x => { x with prv := none, nxt := none }) := by
  unfold nodeEject
  rw [hnd]

theorem nodeEject_data (h : Heap K V) (n m : Nat) :
    (lookupA (nodeEject h n) m).map (·.data) = (lookupA h m).map (·.data) := by
  unfold nodeEject
  cases hl : lookupA h n with
  | none => rfl
  | some nd =>
    simp only [lookupA_set_links_data, setPrv_data, setNxt_data]

theorem nodeEject_map_fst (h : Heap K V) (n : Nat) :
    (nodeEject h n).map Prod.fst = h.map Prod.fst := by
  unfold nodeEject
  cases hl : lookupA h n with
  | none => rfl
  | some nd =>
    simp only [updateA_map_fst, setPrv_map_fst, setNxt_map_fst]

theorem insertBetween_data (h : Heap K V) (n : Nat) (prv nxt : Option Nat) (m : Nat) :
    (lookupA (insertBetween h n prv nxt) m).map (·.data) = (lookupA h m).map (·.data) := by
  unfold insertBetween
  rw [lookupA_set_links_data, setPrv_data, setNxt_data]

theorem insertBetween_map_fst (h : Heap K V) (n : Nat) (prv nxt : Option Nat) :
    (insertBetween h n prv nxt).map Prod.fst = h.map Prod.fst := by
  unfold insertBetween
  rw [updateA_map_fst, setPrv_map_fst, setNxt_map_fst]

theorem eject_heap_data (l : DLList K V) (n m : Nat) :
    (lookupA (l.eject n).heap m).map (·.data) = (lookupA l.heap m).map (·.data) :=
  nodeEject_data _ _ _

theorem eject_heap_fst (l : DLList K V) (n : Nat) :
    (l.eject n).heap.map Prod.fst = l.heap.map Prod.fst :=
  nodeEject_map_fst _ _

theorem push_front_heap_data (l : DLList K V) (n m : Nat) :
    (lookupA (l.push_front n).heap m).map (·.data) = (lookupA l.heap m).map (·.data) := by
  show (lookupA (insertBetween l.heap n none l.front) m).map (·.data) =
    (lookupA l.heap m).map (·.data)
  exact insertBetween_data _ _ _ _ _

theorem push_front_heap_fst (l : DLList K V) (n : Nat) :
    (l.push_front n).heap.map Prod.fst = l.heap.map Prod.fst := by
  show (insertBetween l.heap n none l.front).map Prod.fst = l.heap.map Prod.fst
  exact insertBetween_map_fst _ _ _ _

theorem move_to_front_heap_data (l : DLList K V) (n m : Nat) :
    (lookupA (l.move_to_front n).heap m).map (·.data) = (lookupA l.heap m).map (·.data) := by
  unfold DLList.move_to_front
  by_cases hf : l.front = some n
  · rw [if_pos hf]
  · rw [if_neg hf, push_front_heap_data, eject_heap_data]

theorem move_to_front_heap_fst (l : DLList K V) (n : Nat) :
    (l.move_to_front n).heap.map Prod.fst = l.heap.map Prod.fst := by
  unfold DLList.move_to_front
  by_cases hf : l.front = some n
  · rw [if_pos hf]
  · rw [if_neg hf, push_front_heap_fst, eject_heap_fst]

theorem lookupA_mem_fst {h : Heap K V} {n : Nat} (hm : n ∈ h.map Prod.fst) :
    ∃ nd, lookupA h n = some nd := by
  cases hl : lookupA h n with
  | none => exact absurd hm ((lookupA_eq_none_iff h n).mp hl)
  | some nd => exact ⟨nd, rfl⟩

/-! Facts about `headOr` and `lastOr`. -/

theorem headOr_none (l : List Nat) : headOr l none = l.head? := by
  cases l <;> rfl

theorem headOr_append (A B : List Nat) (d : Option Nat) :
    headOr (A ++ B) d = headOr A (headOr B d) := by
  cases A <;> rfl

theorem lastOr_append (A B : List Nat) (d : Option Nat) :
    lastOr (A ++ B) d = lastOr B (lastOr A d) := by
  induction A generalizing d with
  | nil => rfl
  | cons a A' ih => simp [lastOr, ih]

theorem lastOr_indep {l : List Nat} (hl : l ≠ []) (d d' : Option Nat) :
    lastOr l d = lastOr l d' := by
  cases l with
  | nil => exact absurd rfl hl
  | cons a A' =>
    simp only [lastOr]

theorem lastOr_mem {l : List Nat} (hl : l ≠ []) (d : Option Nat) :
    ∃ x ∈ l, lastOr l d = some x := by
  induction l generalizing d with
  | nil => exact absurd rfl hl
  | cons a A' ih =>
    cases hA : A' with
    | nil => exact ⟨a, List.mem_cons_self _ _, rfl⟩
    | cons b B' =>
      obtain ⟨x, hx, hlast⟩ := ih (by simp [hA]) (some a)
      rw [hA] at hx
      exact ⟨x, List.mem_cons_of_mem _ (hA ▸ hx), by simpa [lastOr, hA] using hlast⟩

theorem lastOr_none_eq_getLast? (l : List Nat) : lastOr l none = l.getLast? := by
  induction l with
  | nil => rfl
  | cons a A' ih =>
    cases hA : A' with
    | nil => rfl
    | cons b B' =>
      rw [hA] at ih
      simp only [lastOr]
      rw [show lastOr B' (some b) = lastOr (b :: B') none from rfl, ih,
        List.getLast?_cons_cons]

theorem lastOr_eq_some_decomp {l : List Nat} {x : Nat}
    (h : lastOr l none = some x) : ∃ l', l = l' ++ [x] := by
  induction l using List.reverseRecOn with
  | nil => simp [lastOr] at h
  | append_singleton l' a _ =>
    rw [lastOr_append] at h
    simp only [lastOr] at h
    cases h
    exact ⟨l', rfl⟩

/-! Facts about `chainSeg`. -/

theorem chainSeg_nil (h : Heap K V) (prev next : Option Nat) :
    chainSeg h prev [] next := trivial

theorem chainSeg_cons_iff {h : Heap K V} {prev next : Option Nat} {n : Nat}
    {rest : List Nat} :
    chainSeg h prev (n :: rest) next ↔
      ∃ nd, lookupA h n = some nd ∧ nd.prv = prev ∧ nd.nxt = headOr rest next ∧
        chainSeg h (some n) rest next := Iff.rfl

theorem chainSeg_frame {h h' : Heap K V} {order : List Nat} {prev next : Option Nat}
    (hf : ∀ m ∈ order, (lookupA h' m).map (fun nd => (nd.prv, nd.nxt)) =
      (lookupA h m).map (fun nd => (nd.prv, nd.nxt)))
    (hc : chainSeg h prev order next) : chainSeg h' prev order next := by
  induction order generalizing prev with
  | nil => trivial
  | cons n rest ih =>
    obtain ⟨nd, hl, hp, hx, hrest⟩ := chainSeg_cons_iff.mp hc
    have hm := hf n (List.mem_cons_self _ _)
    rw [hl] at hm
    cases hl' : lookupA h' n with
    | none => rw [hl'] at hm; simp at hm
    | some nd' =>
      rw [hl'] at hm
      simp only [Option.map_some'] at hm
      have hpair := Option.some.inj hm
      have hpr : nd'.prv = nd.prv := congrArg Prod.fst hpair
      have hnx : nd'.nxt = nd.nxt := congrArg Prod.snd hpair
      refine chainSeg_cons_iff.mpr ⟨nd', hl', ?_, ?_,
        ih (fun m hmem => hf m (List.mem_cons_of_mem _ hmem)) hrest⟩
      · rw [hpr, hp]
      · rw [hnx, hx]

theorem chainSeg_lookup_mem {h : Heap K V} {prev next : Option Nat} {order : List Nat}
    (hc : chainSeg h prev order next) {m : Nat} (hm : m ∈ order) :
    ∃ nd, lookupA h m = some nd := by
  induction order generalizing prev with
  | nil => simp at hm
  | cons n rest ih =>
    obtain ⟨nd, hl, -, -, hrest⟩ := chainSeg_cons_iff.mp hc
    rcases List.mem_cons.mp hm with h1 | h1
    · exact ⟨nd, h1 ▸ hl⟩
    · exact ih hrest h1

theorem chainSeg_append {h : Heap K V} {A B : List Nat} {prev next : Option Nat} :
    chainSeg h prev (A ++ B) next ↔
      chainSeg h prev A (headOr B next) ∧ chainSeg h (lastOr A prev) B next := by
  induction A generalizing prev with
  | nil => simp [chainSeg_nil, lastOr, true_and]
  | cons a A' ih =>
    rw [List.cons_append]
    rw [show lastOr (a :: A') prev = lastOr A' (some a) from rfl]
    constructor
    · intro hc
      obtain ⟨nd, hl, hp, hx, hrest⟩ := chainSeg_cons_iff.mp hc
      obtain ⟨h1, h2⟩ := ih.mp hrest
      refine ⟨chainSeg_cons_iff.mpr ⟨nd, hl, hp, ?_, h1⟩, h2⟩
      rw [hx, headOr_append]
    · rintro ⟨hA, hB⟩
      obtain ⟨nd, hl, hp, hx, hrest⟩ := chainSeg_cons_iff.mp hA
      refine chainSeg_cons_iff.mpr ⟨nd, hl, hp, ?_, ih.mpr ⟨hrest, hB⟩⟩
      rw [hx, headOr_append]

theorem chainSeg_set_last_nxt {h : Heap K V} {A' : List Nat} {p : Nat}
    {prev old X : Option Nat} (hc : chainSeg h prev (A' ++ [p]) old) (hp : p ∉ A') :
    chainSeg (updateA h p (fun x => { x with nxt := X })) prev (A' ++ [p]) X := by
  rw [chainSeg_append] at hc ⊢
  obtain ⟨hA, hP⟩ := hc
  obtain ⟨pd, hpd, hpp, hpx, -⟩ := chainSeg_cons_iff.mp hP
  constructor
  · refine chainSeg_frame (fun m hm => ?_) hA
    have hmp : m ≠ p := fun hh => hp (hh ▸ hm)
    rw [lookupA_updateA_ne _ _ _ _ hmp]
  · refine chainSeg_cons_iff.mpr ⟨{ pd with nxt := X }, ?_, hpp, rfl, trivial⟩
    rw [lookupA_updateA_self, hpd]
    rfl

theorem headOr_indep {l : List Nat} (hl : l ≠ []) (d d' : Option Nat) :
    headOr l d = headOr l d' := by
  cases l with
  | nil => exact absurd rfl hl
  | cons a l' => rfl

theorem eject_front {l : DLList K V} {A B : List Nat} {n : Nat} {nd : DLListNode K V}
    (hnd : lookupA l.heap n = some nd)
    (hfront : l.front = headOr (A ++ n :: B) none)
    (hnxt : nd.nxt = headOr B none) (hnA : n ∉ A) :
    (l.eject n).front = headOr (A ++ B) none := by
  show (if l.front = some n then (lookupA l.heap n).bind (·.nxt) else l.front) = _
  cases A with
  | nil =>
    have hf : l.front = some n := hfront
    rw [if_pos hf, hnd]
    exact hnxt
  | cons a A' =>
    have hf : l.front = some a := hfront
    have han : a ≠ n := fun hh => hnA (hh ▸ List.mem_cons_self _ _)
    rw [if_neg (by rw [hf]; exact fun hh => han (Option.some.inj hh)), hf]
    rfl

theorem eject_back {l : DLList K V} {A B : List Nat} {n : Nat} {nd : DLListNode K V}
    (hnd : lookupA l.heap n = some nd)
    (hback : l.back = lastOr (A ++ n :: B) none)
    (hprv : nd.prv = lastOr A none) (hnB : n ∉ B) :
    (l.eject n).back = lastOr (A ++ B) none := by
  show (if l.back = some n then (lookupA l.heap n).bind (·.prv) else l.back) = _
  have hb : l.back = lastOr B (some n) := by rw [hback, lastOr_append]; rfl
  cases B with
  | nil =>
    have hb' : l.back = some n := hb
    rw [if_pos hb', hnd]
    show nd.prv = lastOr (A ++ []) none
    rw [List.append_nil]
    exact hprv
  | cons b B' =>
    obtain ⟨x, hxmem, hx⟩ := lastOr_mem (l := b :: B') (List.cons_ne_nil _ _) (some n)
    have hxn : x ≠ n := fun hh => hnB (hh ▸ hxmem)
    have hbx : l.back = some x := by rw [hb, hx]
    rw [if_neg (by rw [hbx]; exact fun hh => hxn (Option.some.inj hh)), hbx]
    rw [lastOr_append]
    exact hx.symm.trans (lastOr_indep (List.cons_ne_nil _ _) _ _)

theorem nodeEject_chain {l : DLList K V} {A B : List Nat} {n : Nat} {nd : DLListNode K V}
    (hnd : lookupA l.heap n = some nd)
    (hA : chainSeg l.heap none A (some n))
    (hB : chainSeg l.heap (some n) B none)
    (hprv : nd.prv = lastOr A none) (hnxt : nd.nxt = headOr B none)
    (hAn : (A ++ n :: B).Nodup) :
    chainSeg (nodeEject l.heap n) none (A ++ B) none := by
  have hmid := List.nodup_cons.mp (List.nodup_middle.mp hAn)
  have hnAB := hmid.1
  have hABnodup := hmid.2
  have hnA : n ∉ A := fun hh => hnAB (List.mem_append.mpr (Or.inl hh))
  have hnB : n ∉ B := fun hh => hnAB (List.mem_append.mpr (Or.inr hh))
  obtain ⟨hAnodup, hBnodup, hdisj⟩ := List.nodup_append.mp hABnodup
  rw [nodeEject_of_lookup hnd]
  cases hcp : nd.prv with
  | none =>
    cases A with
    | cons a A' =>
      obtain ⟨x, -, hx⟩ := lastOr_mem (l := a :: A') (List.cons_ne_nil _ _) none
      rw [hx] at hprv
      exact absurd (hcp.symm.trans hprv) (by simp)
    | nil =>
      cases B with
      | nil =>
        rw [show nd.nxt = none from hnxt]
        simp only [setNxt, setPrv]
        exact chainSeg_nil _ _ _
      | cons b B' =>
        rw [show nd.nxt = some b from hnxt]
        simp only [setNxt, setPrv]
        obtain ⟨bd, hbd, hbp, hbx, hB'⟩ := chainSeg_cons_iff.mp hB
        have hbn : b ≠ n := fun hh => hnB (hh ▸ List.mem_cons_self _ _)
        have hbB' : b ∉ B' := (List.nodup_cons.mp hBnodup).1
        refine chainSeg_cons_iff.mpr ⟨{ bd with prv := none }, ?_, rfl, hbx, ?_⟩
        · rw [lookupA_updateA_ne _ _ _ _ hbn, lookupA_updateA_self, hbd]
          rfl
        · refine chainSeg_frame (fun m hm => ?_) hB'
          have hmb : m ≠ b := fun hh => hbB' (hh ▸ hm)
          have hmn : m ≠ n := fun hh => hnB (hh ▸ List.mem_cons_of_mem _ hm)
          rw [lookupA_updateA_ne _ _ _ _ hmn, lookupA_updateA_ne _ _ _ _ hmb]
  | some p =>
    have hlp : lastOr A none = some p := (hcp.symm.trans hprv).symm
    obtain ⟨A', rfl⟩ := lastOr_eq_some_decomp hlp
    have hpA : p ∈ A' ++ [p] := List.mem_append.mpr (Or.inr (List.mem_singleton.mpr rfl))
    have hpn : p ≠ n := fun hh => hnA (hh ▸ hpA)
    have hpB : p ∉ B := fun hh => hdisj hpA hh
    have hpA' : p ∉ A' := by
      have h2 := (List.nodup_cons.mp (List.nodup_middle.mp hAnodup)).1
      simpa using h2
    have hA2 : chainSeg l.heap none (A' ++ [p]) (some n) := hA
    cases B with
    | nil =>
      rw [show nd.nxt = none from hnxt]
      simp only [setNxt, setPrv]
      rw [List.append_nil]
      have h1 : chainSeg (updateA l.heap p (fun x => { x with nxt := none }))
          none (A' ++ [p]) none := chainSeg_set_last_nxt hA2 hpA'
      refine chainSeg_frame (fun m hm => ?_) h1
      have hmn : m ≠ n := fun hh => hnA (hh ▸ hm)
      rw [lookupA_updateA_ne _ _ _ _ hmn]
    | cons b B' =>
      rw [show nd.nxt = some b from hnxt]
      simp only [setNxt, setPrv]
      obtain ⟨bd, hbd, hbp, hbx, hB'⟩ := chainSeg_cons_iff.mp hB
      have hbn : b ≠ n := fun hh => hnB (hh ▸ List.mem_cons_self _ _)
      have hbB' : b ∉ B' := (List.nodup_cons.mp hBnodup).1
      have hbp' : b ≠ p := fun hh => hpB (hh ▸ List.mem_cons_self _ _)
      refine chainSeg_append.mpr ⟨?_, ?_⟩
      · have h1 : chainSeg (updateA l.heap p (fun x => { x with nxt := some b }))
            none (A' ++ [p]) (some b) := chainSeg_set_last_nxt hA2 hpA'
        refine chainSeg_frame (fun m hm => ?_) h1
        have hmn : m ≠ n := fun hh => hnA (hh ▸ hm)
        have hmb : m ≠ b := fun hh => hdisj (hh ▸ hm) (List.mem_cons_self _ _)
        rw [lookupA_updateA_ne _ _ _ _ hmn, lookupA_updateA_ne _ _ _ _ hmb]
      · refine chainSeg_cons_iff.mpr ⟨{ bd with prv := some p }, ?_, ?_, hbx, ?_⟩
        · rw [lookupA_updateA_ne _ _ _ _ hbn, lookupA_updateA_self,
            lookupA_updateA_ne _ _ _ _ (fun hh => hbp' hh), hbd]
          rfl
        · exact hlp.symm
        · refine chainSeg_frame (fun m hm => ?_) hB'
          have hmb : m ≠ b := fun hh => hbB' (hh ▸ hm)
          have hmn : m ≠ n := fun hh => hnB (hh ▸ List.mem_cons_of_mem _ hm)
          have hmp : m ≠ p := fun hh => hdisj (hh ▸ hpA) (List.mem_cons_of_mem _ hm)
          rw [lookupA_updateA_ne _ _ _ _ hmn, lookupA_updateA_ne _ _ _ _ hmb,
            lookupA_updateA_ne _ _ _ _ hmp]

theorem eject_rep {l : DLList K V} {A B : List Nat} {n : Nat}
    (hrep : ListRep l (A ++ n :: B)) : ListRep (l.eject n) (A ++ B) := by
  obtain ⟨hchain, hfront, hback, hnodup⟩ := hrep
  have hmid := List.nodup_cons.mp (List.nodup_middle.mp hnodup)
  have hABnodup : (A ++ B).Nodup := hmid.2
  have hnA : n ∉ A := fun hh => hmid.1 (List.mem_append.mpr (Or.inl hh))
  have hnB : n ∉ B := fun hh => hmid.1 (List.mem_append.mpr (Or.inr hh))
  rw [chainSeg_append] at hchain
  obtain ⟨hA, hNB⟩ := hchain
  obtain ⟨nd, hnd, hprv, hnxt, hB⟩ := chainSeg_cons_iff.mp hNB
  exact ⟨nodeEject_chain hnd hA hB hprv hnxt hnodup,
    eject_front hnd hfront hnxt hnA,
    eject_back hnd hback hprv hnB, hABnodup⟩

theorem chainSeg_sub_fst {h : Heap K V} {prev next : Option Nat} {order : List Nat}
    (hc : chainSeg h prev order next) {m : Nat} (hm : m ∈ order) :
    m ∈ h.map Prod.fst := by
  obtain ⟨nd, hnd⟩ := chainSeg_lookup_mem hc hm
  exact lookupA_some_mem_fst hnd

theorem push_front_rep {l : DLList K V} {order : List Nat} {n : Nat}
    (hrep : ListRep l order) (hn : n ∉ order) (hmem : n ∈ l.heap.map Prod.fst) :
    ListRep (l.push_front n) (n :: order) := by
  obtain ⟨hchain, hfront, hback, hnodup⟩ := hrep
  obtain ⟨nd, hnd⟩ := lookupA_mem_fst hmem
  refine ⟨?_, rfl, ?_, List.nodup_cons.mpr ⟨hn, hnodup⟩⟩
  · show chainSeg (insertBetween l.heap n none l.front) none (n :: order) none
    unfold insertBetween
    simp only [setNxt]
    cases order with
    | nil =>
      rw [show l.front = none from hfront]
      simp only [setPrv]
      refine chainSeg_cons_iff.mpr ⟨{ nd with prv := none, nxt := none }, ?_, rfl, rfl, trivial⟩
      rw [lookupA_updateA_self, hnd]
      rfl
    | cons f rest =>
      rw [show l.front = some f from hfront]
      simp only [setPrv]
      obtain ⟨fd, hfd, hfp, hfx, hrest⟩ := chainSeg_cons_iff.mp hchain
      have hfn : f ≠ n := fun hh => hn (hh ▸ List.mem_cons_self _ _)
      have hfr : f ∉ rest := (List.nodup_cons.mp hnodup).1
      refine chainSeg_cons_iff.mpr ⟨{ nd with prv := none, nxt := some f }, ?_, rfl, rfl, ?_⟩
      · rw [lookupA_updateA_self, lookupA_updateA_ne _ _ _ _ (fun hh => hfn hh.symm), hnd]
        rfl
      · refine chainSeg_cons_iff.mpr ⟨{ fd with prv := some n }, ?_, rfl, hfx, ?_⟩
        · rw [lookupA_updateA_ne _ _ _ _ hfn, lookupA_updateA_self, hfd]
          rfl
        · refine chainSeg_frame (fun m hm => ?_) hrest
          have hmf : m ≠ f := fun hh => hfr (hh ▸ hm)
          have hmn : m ≠ n := fun hh => hn (hh ▸ List.mem_cons_of_mem _ hm)
          rw [lookupA_updateA_ne _ _ _ _ hmn, lookupA_updateA_ne _ _ _ _ hmf]
  · show (if l.back.isNone then some n else l.back) = lastOr (n :: order) none
    cases order with
    | nil =>
      rw [show l.back = none from hback]
      rfl
    | cons f rest =>
      have hb : l.back = lastOr (f :: rest) none := hback
      obtain ⟨x, hxmem, hx⟩ := lastOr_mem (l := f :: rest) (List.cons_ne_nil _ _) none
      rw [hb, hx]
      rw [if_neg (by simp)]
      rw [show lastOr (n :: f :: rest) none = lastOr (f :: rest) (some n) from rfl]
      rw [lastOr_indep (List.cons_ne_nil _ _) (some n) none, hx]

theorem move_to_front_rep {l : DLList K V} {order : List Nat} {n : Nat}
    (hrep : ListRep l order) (hn : n ∈ order) :
    ∃ order', ListRep (l.move_to_front n) order' ∧ order'.Perm order ∧
      headOr order' none = some n := by
  unfold DLList.move_to_front
  by_cases hf : l.front = some n
  · rw [if_pos hf]
    refine ⟨order, hrep, List.Perm.refl _, ?_⟩
    rw [← hrep.front_ok]
    exact hf
  · rw [if_neg hf]
    obtain ⟨A, B, rfl⟩ := List.append_of_mem hn
    have hrep' := eject_rep hrep
    have hmem : n ∈ l.heap.map Prod.fst := chainSeg_sub_fst hrep.chain_ok hn
    have hmem' : n ∈ (l.eject n).heap.map Prod.fst := by
      rw [eject_heap_fst]
      exact hmem
    have hnAB : n ∉ A ++ B := (List.nodup_cons.mp (List.nodup_middle.mp hrep.nodup)).1
    exact ⟨n :: (A ++ B), push_front_rep hrep' hnAB hmem',
      List.perm_middle.symm, rfl⟩

theorem lookupA_set_value_links (h : Heap K V) (n : Nat) (v : V) (m : Nat) :
    (lookupA (updateA h n (fun nd => { nd with data := { nd.data with value := v } })) m).map
        (fun x => (x.prv, x.nxt)) =
      (lookupA h m).map (fun x => (x.prv, x.nxt)) := by
  by_cases hm : m = n
  · subst hm
    rw [lookupA_updateA_self]
    cases lookupA h m <;> rfl
  · rw [lookupA_updateA_ne _ _ _ _ hm]

theorem lookupA_set_value_key (h : Heap K V) (n : Nat) (v : V) (m : Nat) :
    (lookupA (updateA h n (fun nd => { nd with data := { nd.data with value := v } })) m).map
        (·.data.key) =
      (lookupA h m).map (·.data.key) := by
  by_cases hm : m = n
  · subst hm
    rw [lookupA_updateA_self]
    cases lookupA h m <;> rfl
  · rw [lookupA_updateA_ne _ _ _ _ hm]

theorem key_of_data_eq {o o' : Option (DLListNode K V)}
    (h : o.map (·.data) = o'.map (·.data)) : o.map (·.data.key) = o'.map (·.data.key) := by
  cases o <;> cases o' <;> simp_all

theorem resolve_of_key_map {h' : Heap K V} {n0 : Nat} {k0 : K}
    (hk : (lookupA h' n0).map (·.data.key) = some k0) :
    ∃ nd', lookupA h' n0 = some nd' ∧ nd'.data.key = k0 := by
  cases hl : lookupA h' n0 with
  | none => rw [hl] at hk; cases hk
  | some nd' =>
    rw [hl] at hk
    exact ⟨nd', rfl, Option.some.inj hk⟩

theorem resolve_frame {h h' : Heap K V} {dict : List (K × Nat)}
    (hf : ∀ k n, (k, n) ∈ dict →
      (lookupA h' n).map (·.data.key) = (lookupA h n).map (·.data.key))
    (hres : ∀ k n, (k, n) ∈ dict → ∃ nd, lookupA h n = some nd ∧ nd.data.key = k) :
    ∀ k n, (k, n) ∈ dict → ∃ nd, lookupA h' n = some nd ∧ nd.data.key = k := by
  intro k n hmem
  obtain ⟨nd, hnd, hkey⟩ := hres k n hmem
  apply resolve_of_key_map
  rw [hf k n hmem, hnd]
  show some nd.data.key = some k
  rw [hkey]

theorem append_rep {l : DLList K V} {order : List Nat} (hrep : ListRep l order)
    (x : Nat × DLListNode K V) :
    ListRep { l with heap := l.heap ++ [x] } order := by
  refine ⟨chainSeg_frame (fun m hm => ?_) hrep.chain_ok, hrep.front_ok, hrep.back_ok,
    hrep.nodup⟩
  obtain ⟨nd, hnd⟩ := chainSeg_lookup_mem hrep.chain_ok hm
  rw [hnd, lookupA_append_left hnd]

theorem set_value_rep {l : DLList K V} {order : List Nat} (hrep : ListRep l order)
    (n : Nat) (v : V) :
    ListRep { l with heap := updateA l.heap n (fun nd => { nd with data := { nd.data with value := v } }) } order :=
  ⟨chainSeg_frame (fun m _ => lookupA_set_value_links l.heap n v m) hrep.chain_ok,
    hrep.front_ok, hrep.back_ok, hrep.nodup⟩

theorem move_inv {c : LRUCache K V} {order : List Nat} (hinv : CacheInv c order) {n : Nat}
    (hn : n ∈ order) :
    ∃ order', CacheInv { c with dllist := c.dllist.move_to_front n } order' ∧
      headOr order' none = some n ∧ order'.Perm order := by
  obtain ⟨order', hrep', hperm, hhead⟩ := move_to_front_rep hinv.rep hn
  refine ⟨order', ⟨hrep', hinv.dict_perm.trans hperm.symm, hinv.dict_keys_nodup,
    resolve_frame (fun k0 n0 _ => key_of_data_eq (move_to_front_heap_data c.dllist n n0))
      hinv.dict_resolve,
    ?_, hinv.size_ok, hinv.max_pos⟩, hhead, hperm⟩
  intro i hi
  apply hinv.ids_lt
  rwa [move_to_front_heap_fst] at hi

theorem get_ok_inv {c c' : LRUCache K V} {order : List Nat} {k : K} {d : Option V} {v : V}
    (hinv : CacheInv c order) (h : LRUCache.get c k d = .ok (v, c')) :
    ∃ order', CacheInv c' order' := by
  unfold LRUCache.get at h
  cases hk : lookupA c.dict k with
  | none =>
    rw [hk] at h
    cases d with
    | none => simp at h
    | some d0 =>
      simp at h
      obtain ⟨-, rfl⟩ := h
      exact ⟨order, hinv⟩
  | some n =>
    rw [hk] at h
    have hnord : n ∈ order := hinv.dict_perm.mem_iff.mp
      (List.mem_map.mpr ⟨(k, n), lookupA_mem hk, rfl⟩)
    have hmem2 : n ∈ (c.dllist.move_to_front n).heap.map Prod.fst := by
      rw [move_to_front_heap_fst]
      exact chainSeg_sub_fst hinv.rep.chain_ok hnord
    obtain ⟨nd', hnd'⟩ := lookupA_mem_fst hmem2
    simp [hnd'] at h
    obtain ⟨-, rfl⟩ := h
    obtain ⟨order', hinv', -, -⟩ := move_inv hinv hnord
    exact ⟨order', hinv'⟩

theorem insert_fresh_inv {c : LRUCache K V} {order : List Nat} (hinv : CacheInv c order)
    {k : K} (v : V) (hk : lookupA c.dict k = none)
    (hsize : (c.dict.length : Int) < c.max_size) :
    CacheInv { max_size := c.max_size, dict := setA c.dict k c.nextId, dllist := DLList.push_front { heap := c.dllist.heap ++ [(c.nextId, ⟨⟨k, v⟩, none, none⟩)], front := c.dllist.front, back := c.dllist.back } c.nextId, nextId := c.nextId + 1 } (c.nextId :: order) := by
  have hfresh : c.nextId ∉ c.dllist.heap.map Prod.fst := fun hh =>
    Nat.lt_irrefl _ (hinv.ids_lt _ hh)
  have hnord : c.nextId ∉ order := fun hh =>
    hfresh (chainSeg_sub_fst hinv.rep.chain_ok hh)
  have hlookNone : lookupA c.dllist.heap c.nextId = none :=
    (lookupA_eq_none_iff _ _).mpr hfresh
  have hlook2 : lookupA
      (c.dllist.heap ++ [(c.nextId, (⟨⟨k, v⟩, none, none⟩ : DLListNode K V))]) c.nextId =
      some ⟨⟨k, v⟩, none, none⟩ := by
    rw [lookupA_append_right _ hlookNone]
    simp [lookupA]
  have hrep2 : ListRep ({ heap := c.dllist.heap ++ [(c.nextId, ⟨⟨k, v⟩, none, none⟩)], front := c.dllist.front, back := c.dllist.back } : DLList K V) order :=
    append_rep hinv.rep _
  have hrep3 := push_front_rep hrep2 hnord (lookupA_some_mem_fst hlook2)
  have hkeys : k ∉ c.dict.map Prod.fst := (lookupA_eq_none_iff _ _).mp hk
  have hset : setA c.dict k c.nextId = c.dict ++ [(k, c.nextId)] := setA_absent _ hk
  refine ⟨hrep3, ?_, ?_, ?_, ?_, ?_, hinv.max_pos⟩
  · rw [hset, List.map_append]
    exact (hinv.dict_perm.append_right _).trans (List.perm_append_singleton _ _)
  · rw [hset, List.map_append]
    refine List.nodup_append.mpr ⟨hinv.dict_keys_nodup, List.nodup_singleton _, ?_⟩
    intro a ha hb
    rw [List.mem_singleton.mp hb] at ha
    exact hkeys ha
  · intro k0 n0 hmem
    rw [hset] at hmem
    rcases List.mem_append.mp hmem with hold | hnew
    · obtain ⟨nd, hnd, hkey⟩ := hinv.dict_resolve k0 n0 hold
      apply resolve_of_key_map
      have e1 := key_of_data_eq (push_front_heap_data ({ heap := c.dllist.heap ++ [(c.nextId, ⟨⟨k, v⟩, none, none⟩)], front := c.dllist.front, back := c.dllist.back } : DLList K V) c.nextId n0)
      rw [e1, lookupA_append_left hnd]
      show some nd.data.key = some k0
      rw [hkey]
    · have hp := List.mem_singleton.mp hnew
      have hk0 : k0 = k := congrArg Prod.fst hp
      have hn0 : n0 = c.nextId := congrArg Prod.snd hp
      rw [hk0, hn0]
      apply resolve_of_key_map
      have e1 := key_of_data_eq (push_front_heap_data ({ heap := c.dllist.heap ++ [(c.nextId, ⟨⟨k, v⟩, none, none⟩)], front := c.dllist.front, back := c.dllist.back } : DLList K V) c.nextId c.nextId)
      rw [e1, hlook2]
      rfl
  · intro i hi
    rw [push_front_heap_fst] at hi
    simp only [List.map_append] at hi
    rcases List.mem_append.mp hi with h1 | h1
    · exact Nat.lt_succ_of_lt (hinv.ids_lt _ h1)
    · have : i = c.nextId := by simpa using h1
      rw [this]
      exact Nat.lt_succ_self _
  · rw [hset]
    simp only [List.length_append, List.length_singleton]
    push_cast
    omega

theorem full_iff {c : LRUCache K V} : c.full = true ↔ (c.dict.length : Int) ≥ c.max_size := by
  unfold LRUCache.full
  exact decide_eq_true_iff

theorem put_inv {c : LRUCache K V} {order : List Nat} (hinv : CacheInv c order) (k : K) (v : V) :
    ∃ c' order', LRUCache.put c k v = .ok c' ∧ CacheInv c' order' := by
  cases hk : lookupA c.dict k with
  | some n =>
    have hnord : n ∈ order := hinv.dict_perm.mem_iff.mp
      (List.mem_map.mpr ⟨(k, n), lookupA_mem hk, rfl⟩)
    obtain ⟨order', hinv', -, -⟩ := move_inv hinv hnord
    refine ⟨{ c with dllist := { c.dllist.move_to_front n with heap := updateA (c.dllist.move_to_front n).heap n (fun nd => { nd with data := { nd.data with value := v } }) } }, order', ?_, ?_⟩
    · simp [LRUCache.put, hk]
    · exact ⟨set_value_rep hinv'.rep n v, hinv'.dict_perm, hinv'.dict_keys_nodup,
        resolve_frame (fun k0 n0 _ => lookupA_set_value_key _ n v n0) hinv'.dict_resolve,
        fun i hi => hinv'.ids_lt i (by rwa [updateA_map_fst] at hi),
        hinv'.size_ok, hinv'.max_pos⟩
  | none =>
    by_cases hfull : c.full = true
    · have hge : (c.dict.length : Int) ≥ c.max_size := full_iff.mp hfull
      have hmaxpos := hinv.max_pos
      have hlen1 : 1 ≤ c.dict.length := by omega
      have hordne : order ≠ [] := by
        intro h0
        have hlen := hinv.dict_perm.length_eq
        rw [h0, List.length_map, List.length_nil] at hlen
        omega
      obtain ⟨nB, hnBmem, hnBlast⟩ := lastOr_mem hordne none
      obtain ⟨A, hAdec⟩ := lastOr_eq_some_decomp hnBlast
      subst hAdec
      have hback : c.dllist.back = some nB := by
        rw [hinv.rep.back_ok, hnBlast]
      have hnBsnds : nB ∈ c.dict.map Prod.snd := hinv.dict_perm.mem_iff.mpr hnBmem
      obtain ⟨pr, hprmem, hprsnd⟩ := List.mem_map.mp hnBsnds
      obtain ⟨kB, nB0⟩ := pr
      have hkBmem : (kB, nB) ∈ c.dict := by
        have hn0 : nB0 = nB := hprsnd
        rw [← hn0]
        exact hprmem
      obtain ⟨ndB, hndB, hkeyB⟩ := hinv.dict_resolve kB nB hkBmem
      have hd := eject_heap_data c.dllist nB nB
      rw [hndB] at hd
      obtain ⟨ndB', hndB', hdataB⟩ : ∃ nd', lookupA (c.dllist.eject nB).heap nB = some nd' ∧
          nd'.data = ndB.data := by
        cases hl : lookupA (c.dllist.eject nB).heap nB with
        | none => rw [hl] at hd; cases hd
        | some x =>
          rw [hl] at hd
          exact ⟨x, rfl, Option.some.inj hd⟩
      have hkeyB' : ndB'.data.key = kB := by rw [hdataB]; exact hkeyB
      have hlookkB : lookupA c.dict kB = some nB := mem_lookupA hinv.dict_keys_nodup hkBmem
      have hdel : lookupA c.dict ndB'.data.key = some nB := by rw [hkeyB']; exact hlookkB
      have hrepA : ListRep (c.dllist.eject nB) A := by
        have h1 := eject_rep (n := nB) hinv.rep
        rwa [List.append_nil] at h1
      have hremfst : (removeA c.dict kB).map Prod.fst = (c.dict.map Prod.fst).erase kB :=
        removeA_map_fst _ _
      have hremlen : c.dict.length = (removeA c.dict kB).length + 1 := removeA_length hlookkB
      have hremperm : ((removeA c.dict kB).map Prod.snd).Perm A := by
        have h1 := (removeA_perm hlookkB).map Prod.snd
        simp only [List.map_cons] at h1
        have h2 : (c.dict.map Prod.snd).Perm (nB :: A) :=
          hinv.dict_perm.trans (List.perm_append_singleton _ _)
        exact List.Perm.cons_inv (h1.symm.trans h2)
      have hinv1 : CacheInv { c with dict := removeA c.dict ndB'.data.key, dllist := c.dllist.eject nB } A := by
        rw [hkeyB']
        refine ⟨hrepA, hremperm, ?_, ?_, ?_, ?_, hinv.max_pos⟩
        · rw [hremfst]
          exact hinv.dict_keys_nodup.erase _
        · refine resolve_frame (fun k0 n0 _ => key_of_data_eq (eject_heap_data c.dllist nB n0)) ?_
          intro k0 n0 hmem
          exact hinv.dict_resolve k0 n0 (removeA_subset hmem)
        · intro i hi
          apply hinv.ids_lt
          rwa [eject_heap_fst] at hi
        · show ((removeA c.dict kB).length : Int) ≤ c.max_size
          have hs := hinv.size_ok
          omega
      have hsize1 : ((( { c with dict := removeA c.dict ndB'.data.key, dllist := c.dllist.eject nB } : LRUCache K V)).dict.length : Int) < ({ c with dict := removeA c.dict ndB'.data.key, dllist := c.dllist.eject nB } : LRUCache K V).max_size := by
        show ((removeA c.dict ndB'.data.key).length : Int) < c.max_size
        rw [hkeyB']
        have hs := hinv.size_ok
        omega
      have hk1 : lookupA (removeA c.dict ndB'.data.key) k = none := by
        rw [hkeyB']
        rw [lookupA_eq_none_iff] at hk ⊢
        rw [hremfst]
        intro hmem
        exact hk (List.mem_of_mem_erase hmem)
      have hevict : LRUCache.evictIfFull c = .ok { c with dict := removeA c.dict ndB'.data.key, dllist := c.dllist.eject nB } := by
        simp [LRUCache.evictIfFull, hfull, DLList.pop_back, hback, hndB', hdel]
      have hfin := insert_fresh_inv hinv1 v hk1 hsize1
      refine ⟨_, _, ?_, hfin⟩
      simp only [LRUCache.put, hk, hevict]
    · have h1 : ¬ ((c.dict.length : Int) ≥ c.max_size) := fun hge => hfull (full_iff.mpr hge)
      have hlt : (c.dict.length : Int) < c.max_size := by omega
      have hevict : LRUCache.evictIfFull c = .ok c := by
        simp [LRUCache.evictIfFull, hfull]
      have hfin := insert_fresh_inv hinv v hk hlt
      refine ⟨_, _, ?_, hfin⟩
      simp only [LRUCache.put, hk, hevict]

theorem init_inv {n : Int} {c : LRUCache K V} (h : LRUCache.init (.int n) = .ok c) :
    CacheInv c [] := by
  simp only [LRUCache.init] at h
  by_cases hn : n ≤ 0
  · rw [if_pos hn] at h
    cases h
  · rw [if_neg hn] at h
    obtain rfl := Except.ok.inj h
    refine ⟨⟨trivial, rfl, rfl, List.nodup_nil⟩, List.Perm.refl _, List.nodup_nil,
      ?_, ?_, ?_, ?_⟩
    · intro k0 n0 hmem
      exact absurd hmem (List.not_mem_nil _)
    · intro i hi
      simp [DLList.emptyL] at hi
    · show (([] : List (K × Nat)).length : Int) ≤ n
      simp only [List.length_nil, Int.natCast_zero]
      omega
    · show (0 : Int) < n
      omega

theorem reachable_inv {c : LRUCache K V} (h : Reachable c) : ∃ order, CacheInv c order := by
  induction h with
  | init n c h => exact ⟨[], init_inv h⟩
  | getStep c k d v c' hc h ih =>
    obtain ⟨order, hinv⟩ := ih
    exact get_ok_inv hinv h
  | putStep c k v c' hc h ih =>
    obtain ⟨order, hinv⟩ := ih
    obtain ⟨c'', order', heq, hinv'⟩ := put_inv hinv k v
    rw [h] at heq
    cases Except.ok.inj heq
    exact ⟨order', hinv'⟩

theorem lastOr_none_iff {order : List Nat} : lastOr order none = none ↔ order = [] := by
  cases order with
  | nil => simp [lastOr]
  | cons a rest =>
    obtain ⟨x, -, hx⟩ := lastOr_mem (l := a :: rest) (List.cons_ne_nil _ _) none
    rw [hx]
    simp

theorem move_to_front_front (l : DLList K V) (n : Nat) :
    (l.move_to_front n).front = some n := by
  unfold DLList.move_to_front
  by_cases hf : l.front = some n
  · rw [if_pos hf]
    exact hf
  · rw [if_neg hf]
    rfl

theorem filterMap_keys_eq {h : Heap K V} {dict : List (K × Nat)}
    (hres : ∀ k n, (k, n) ∈ dict → ∃ nd, lookupA h n = some nd ∧ nd.data.key = k) :
    (dict.map Prod.snd).filterMap (fun n => (lookupA h n).map (·.data.key)) =
      dict.map Prod.fst := by
  induction dict with
  | nil => rfl
  | cons p rest ih =>
    obtain ⟨k0, n0⟩ := p
    obtain ⟨nd, hnd, hkey⟩ := hres k0 n0 (List.mem_cons_self _ _)
    simp only [List.map_cons, List.filterMap_cons, hnd, Option.map_some']
    rw [hkey, ih (fun k n hm => hres k n (List.mem_cons_of_mem _ hm))]

theorem evictIfFull_max {c c1 : LRUCache K V} (h : LRUCache.evictIfFull c = .ok c1) :
    c1.max_size = c.max_size := by
  unfold LRUCache.evictIfFull at h
  split at h
  · split at h
    · cases h
    · split at h
      · cases h
      · split at h
        · cases h
        · cases Except.ok.inj h
          rfl
  · cases Except.ok.inj h
    rfl

theorem get_max {c c' : LRUCache K V} {k : K} {dflt : Option V} {v : V}
    (h : LRUCache.get c k dflt = .ok (v, c')) : c'.max_size = c.max_size := by
  unfold LRUCache.get at h
  split at h
  · simp only [] at h
    split at h
    · cases Except.ok.inj h
      rfl
    · cases h
  · split at h
    · cases Except.ok.inj h
      rfl
    · cases h

theorem put_max {c c' : LRUCache K V} {k : K} {v : V}
    (h : LRUCache.put c k v = .ok c') : c'.max_size = c.max_size := by
  unfold LRUCache.put at h
  split at h
  · cases Except.ok.inj h
    rfl
  · split at h
    · cases h
    · next c1 heq =>
      cases Except.ok.inj h
      have h2 := evictIfFull_max heq
      exact h2

end Dll

/-! ### Invariant of the `main.py` variant -/

namespace Main

variable {K V : Type} [DecidableEq K]

theorem fullM_iff {c : LRUCache K V} : c.full = true ↔ (c.dict.length : Int) ≥ c.max_size := by
  unfold LRUCache.full
  exact decide_eq_true_iff

theorem initM_inv {n : Int} {c : LRUCache K V} (h : LRUCache.init (.int n) = .ok c) :
    Inv c := by
  simp only [LRUCache.init] at h
  by_cases hn : n ≤ 0
  · rw [if_pos hn] at h
    cases h
  · rw [if_neg hn] at h
    obtain rfl := Except.ok.inj h
    refine ⟨List.nodup_nil, ?_, by show (0 : Int) < n; omega⟩
    show (([] : List (K × V)).length : Int) ≤ n
    simp only [List.length_nil, Int.natCast_zero]
    omega

theorem getM_ok_inv {c c' : LRUCache K V} {k : K} {d : Option V} {v : V}
    (hinv : Inv c) (h : LRUCache.get c k d = .ok (v, c')) : Inv c' := by
  obtain ⟨hnd, hlen, hpos⟩ := hinv
  unfold LRUCache.get at h
  cases hk : lookupA c.dict k with
  | none =>
    rw [hk] at h
    cases d with
    | none => simp at h
    | some d0 =>
      simp at h
      obtain ⟨-, rfl⟩ := h
      exact ⟨hnd, hlen, hpos⟩
  | some v0 =>
    rw [hk] at h
    simp at h
    obtain ⟨-, rfl⟩ := h
    have hrem : lookupA (removeA c.dict k) k = none := lookupA_removeA_self hnd
    have hset := setA_absent (l := removeA c.dict k) v0 hrem
    have hremlen := removeA_length hk
    refine ⟨?_, ?_, hpos⟩
    · show ((setA (removeA c.dict k) k v0).map Prod.fst).Nodup
      rw [hset, List.map_append, removeA_map_fst]
      refine List.nodup_append.mpr ⟨hnd.erase _, List.nodup_singleton _, ?_⟩
      intro a ha hb
      rw [List.mem_singleton.mp hb] at ha
      exact (hnd.mem_erase_iff.mp ha).1 rfl
    · show ((setA (removeA c.dict k) k v0).length : Int) ≤ c.max_size
      rw [hset]
      simp only [List.length_append, List.length_singleton]
      omega

theorem putM_inv {c : LRUCache K V} (hinv : Inv c) (k : K) (v : V) :
    ∃ c', LRUCache.put c k v = .ok c' ∧ Inv c' := by
  obtain ⟨hnd, hlen, hpos⟩ := hinv
  by_cases hfull : c.full = true
  · have hge : (c.dict.length : Int) ≥ c.max_size := fullM_iff.mp hfull
    have hlen1 : 1 ≤ c.dict.length := by omega
    obtain ⟨⟨k0, v0⟩, hhead⟩ : ∃ p, c.dict.head? = some p := by
      cases hd : c.dict with
      | nil =>
        rw [hd] at hlen1
        simp at hlen1
      | cons p rest => exact ⟨p, rfl⟩
    have hmem0 : (k0, v0) ∈ c.dict := by
      cases hd : c.dict with
      | nil => rw [hd] at hhead; cases hhead
      | cons p rest =>
        rw [hd] at hhead
        exact hd ▸ (List.mem_cons.mpr (Or.inl (Option.some.inj hhead).symm))
    have hlook0 : lookupA c.dict k0 = some v0 := mem_lookupA hnd hmem0
    have hremlen := removeA_length hlook0
    have hremnd : ((removeA c.dict k0).map Prod.fst).Nodup := by
      rw [removeA_map_fst]
      exact hnd.erase _
    refine ⟨{ c with dict := setA (removeA c.dict k0) k v }, ?_, ?_, ?_, hpos⟩
    · simp [LRUCache.put, hfull, hhead]
    · show ((setA (removeA c.dict k0) k v).map Prod.fst).Nodup
      cases hk : lookupA (removeA c.dict k0) k with
      | none =>
        rw [setA_absent _ hk, List.map_append]
        refine List.nodup_append.mpr ⟨hremnd, List.nodup_singleton _, ?_⟩
        intro a ha hb
        rw [List.mem_singleton.mp hb] at ha
        exact absurd ((lookupA_eq_none_iff _ _).mp hk) (by simp [ha])
      | some w =>
        rw [setA_map_fst_present _ hk]
        exact hremnd
    · show ((setA (removeA c.dict k0) k v).length : Int) ≤ c.max_size
      cases hk : lookupA (removeA c.dict k0) k with
      | none =>
        rw [setA_absent _ hk]
        simp only [List.length_append, List.length_singleton]
        omega
      | some w =>
        rw [setA_length_present _ hk]
        omega
  · have h1 : ¬ ((c.dict.length : Int) ≥ c.max_size) := fun hge => hfull (fullM_iff.mpr hge)
    refine ⟨{ c with dict := setA c.dict k v }, ?_, ?_, ?_, hpos⟩
    · simp [LRUCache.put, hfull]
    · show ((setA c.dict k v).map Prod.fst).Nodup
      cases hk : lookupA c.dict k with
      | none =>
        rw [setA_absent _ hk, List.map_append]
        refine List.nodup_append.mpr ⟨hnd, List.nodup_singleton _, ?_⟩
        intro a ha hb
        rw [List.mem_singleton.mp hb] at ha
        exact absurd ((lookupA_eq_none_iff _ _).mp hk) (by simp [ha])
      | some w =>
        rw [setA_map_fst_present _ hk]
        exact hnd
    · show ((setA c.dict k v).length : Int) ≤ c.max_size
      cases hk : lookupA c.dict k with
      | none =>
        rw [setA_absent _ hk]
        simp only [List.length_append, List.length_singleton]
        omega
      | some w =>
        rw [setA_length_present _ hk]
        omega

theorem reachableM_inv {c : LRUCache K V} (h : Reachable c) : Inv c := by
  induction h with
  | init n c h => exact initM_inv h
  | getStep c k d v c' hc h ih => exact getM_ok_inv ih h
  | putStep c k v c' hc h ih =>
    obtain ⟨c'', heq, hinv'⟩ := putM_inv ih k v
    rw [h] at heq
    cases Except.ok.inj heq
    exact hinv'

theorem getM_max {c c' : LRUCache K V} {k : K} {dflt : Option V} {v : V}
    (h : LRUCache.get c k dflt = .ok (v, c')) : c'.max_size = c.max_size := by
  unfold LRUCache.get at h
  split at h
  · cases Except.ok.inj h
    rfl
  · split at h
    · cases h
    · cases Except.ok.inj h
      rfl

theorem putM_max {c c' : LRUCache K V} {k : K} {v : V}
    (h : LRUCache.put c k v = .ok c') : c'.max_size = c.max_size := by
  unfold LRUCache.put at h
  split at h
  · split at h
    · cases h
    · cases Except.ok.inj h
      rfl
  · cases Except.ok.inj h
    rfl

end Main


/-! ### C5–C10 -/

/-- C5: for every capacity accepted at construction and every sequence of
`get`/`put` calls, `0 ≤ len() ≤ capacity()` holds after every call, in both
implementations (`len()` is the entry count of the internal dictionary,
`capacity()` is the stored `max_size`). -/
theorem c5_capacity_invariant {K V : Type} [DecidableEq K] :
    (∀ c : Dll.LRUCache K V, Dll.Reachable c →
      (0 : Int) ≤ (c.dict.length : Int) ∧ (c.dict.length : Int) ≤ c.max_size) ∧
    (∀ c : Main.LRUCache K V, Main.Reachable c →
      (0 : Int) ≤ (c.dict.length : Int) ∧ (c.dict.length : Int) ≤ c.max_size) := by
  constructor
  · intro c hc
    obtain ⟨order, hinv⟩ := Dll.reachable_inv hc
    exact ⟨Int.natCast_nonneg _, hinv.size_ok⟩
  · intro c hc
    exact ⟨Int.natCast_nonneg _, (Main.reachableM_inv hc).2.1⟩

/-- Witness for C5, instantiated at freshly constructed caches of
capacity 2 in both variants. -/
theorem c5_capacity_invariant_witness :
    ((0 : Int) ≤ (sampleD0.dict.length : Int) ∧
      (sampleD0.dict.length : Int) ≤ sampleD0.max_size) ∧
    ((0 : Int) ≤ (sampleM0.dict.length : Int) ∧
      (sampleM0.dict.length : Int) ≤ sampleM0.max_size) :=
  ⟨c5_capacity_invariant.1 sampleD0 (Dll.Reachable.init 2 _ rfl),
    c5_capacity_invariant.2 sampleM0 (Main.Reachable.init 2 _ rfl)⟩

/-- C7: a `get` on an absent key raises exactly `KeyError` when no default
is supplied, returns the default (and nothing else) when one is supplied,
and in both cases leaves the cache state completely unchanged — in both
implementations. -/
theorem c7_miss_purity {K V : Type} [DecidableEq K]
    (c : Dll.LRUCache K V) (cm : Main.LRUCache K V) (k : K) (d : V)
    (hd : lookupA c.dict k = none) (hm : lookupA cm.dict k = none) :
    Dll.LRUCache.get c k none = .error .keyError ∧
    Dll.LRUCache.get c k (some d) = .ok (d, c) ∧
    Main.LRUCache.get cm k none = .error .keyError ∧
    Main.LRUCache.get cm k (some d) = .ok (d, cm) := by
  refine ⟨?_, ?_, ?_, ?_⟩ <;>
    simp [Dll.LRUCache.get, Main.LRUCache.get, hd, hm]

/-- Witness for C7: a miss on key `5` with default `7` in concrete caches. -/
theorem c7_miss_purity_witness :
    Dll.LRUCache.get sampleD1 5 none = .error .keyError ∧
    Dll.LRUCache.get sampleD1 5 (some 7) = .ok (7, sampleD1) ∧
    Main.LRUCache.get sampleM1 5 none = .error .keyError ∧
    Main.LRUCache.get sampleM1 5 (some 7) = .ok (7, sampleM1) :=
  c7_miss_purity sampleD1 sampleM1 5 7 rfl rfl

/-- C8: construction fails with the capacity-validation errors exactly when
the argument is not a positive integer (`TypeError` for a non-integer,
`ValueError` for a non-positive integer — the spec's
`InvalidCapacityError`); a failure produces no cache value at all; on
success the stored capacity equals the argument; and no `get` or `put` ever
changes it — in both implementations. -/
theorem c8_construction_validation {K V : Type} [DecidableEq K] :
    (∀ n : Int, 0 < n →
      Dll.LRUCache.init (K := K) (V := V) (.int n) =
        .ok { max_size := n, dict := [], dllist := Dll.DLList.emptyL, nextId := 0 } ∧
      Main.LRUCache.init (K := K) (V := V) (.int n) = .ok { max_size := n, dict := [] }) ∧
    (∀ n : Int, n ≤ 0 →
      Dll.LRUCache.init (K := K) (V := V) (.int n) = .error .valueError ∧
      Main.LRUCache.init (K := K) (V := V) (.int n) = .error .valueError) ∧
    (Dll.LRUCache.init (K := K) (V := V) .nonInt = .error .typeError ∧
      Main.LRUCache.init (K := K) (V := V) .nonInt = .error .typeError) ∧
    (∀ (c c' : Dll.LRUCache K V) (k : K) (dflt : Option V) (v : V),
      Dll.LRUCache.get c k dflt = .ok (v, c') → c'.max_size = c.max_size) ∧
    (∀ (c c' : Dll.LRUCache K V) (k : K) (v : V),
      Dll.LRUCache.put c k v = .ok c' → c'.max_size = c.max_size) ∧
    (∀ (c c' : Main.LRUCache K V) (k : K) (dflt : Option V) (v : V),
      Main.LRUCache.get c k dflt = .ok (v, c') → c'.max_size = c.max_size) ∧
    (∀ (c c' : Main.LRUCache K V) (k : K) (v : V),
      Main.LRUCache.put c k v = .ok c' → c'.max_size = c.max_size) := by
  refine ⟨?_, ?_, ⟨rfl, rfl⟩, ?_, ?_, ?_, ?_⟩
  · intro n hn
    constructor <;>
      simp [Dll.LRUCache.init, Main.LRUCache.init, not_le.mpr hn]
  · intro n hn
    constructor <;>
      simp [Dll.LRUCache.init, Main.LRUCache.init, hn]
  · intro c c' k dflt v h
    exact Dll.get_max h
  · intro c c' k v h
    exact Dll.put_max h
  · intro c c' k dflt v h
    exact Main.getM_max h
  · intro c c' k v h
    exact Main.putM_max h

/-- Witness for C8: capacity `3` succeeds, capacity `0` fails, and concrete
`put`/`get` calls leave `max_size` unchanged. -/
theorem c8_construction_validation_witness :
    (Dll.LRUCache.init (K := Nat) (V := Nat) (.int 3) =
        .ok { max_size := 3, dict := [], dllist := Dll.DLList.emptyL, nextId := 0 } ∧
      Main.LRUCache.init (K := Nat) (V := Nat) (.int 3) = .ok { max_size := 3, dict := [] }) ∧
    (Dll.LRUCache.init (K := Nat) (V := Nat) (.int 0) = .error .valueError ∧
      Main.LRUCache.init (K := Nat) (V := Nat) (.int 0) = .error .valueError) ∧
    sampleD2.max_size = sampleD0.max_size ∧
    sampleM1.max_size = sampleM1.max_size :=
  ⟨c8_construction_validation.1 3 (by decide),
    c8_construction_validation.2.1 0 (by decide),
    c8_construction_validation.2.2.2.2.1 sampleD0 sampleD2 1 10 (by rfl),
    c8_construction_validation.2.2.2.2.2.1 sampleM1 sampleM1 1 none 10 (by rfl)⟩

/-- C6: in the doubly-linked-list variant, every reachable state carries a
recency order `order` of node ids such that the nodes form a well-linked
chain matching the front/back references, the index's node ids are exactly
the ids of `order` (so every index handle points into the recency list —
no stale handles), the index keys are exactly the keys of the listed nodes
(no duplicates on either side), and every index entry resolves to the
exact node holding that key; reachability closure means every `get` and
`put` preserves this. -/
theorem c6_index_list_consistency {K V : Type} [DecidableEq K]
    (c : Dll.LRUCache K V) (hc : Dll.Reachable c) :
    ∃ order : List Nat,
      Dll.chainSeg c.dllist.heap none order none ∧
      c.dllist.front = Dll.headOr order none ∧
      c.dllist.back = Dll.lastOr order none ∧
      order.Nodup ∧
      (c.dict.map Prod.snd).Perm order ∧
      (c.dict.map Prod.fst).Nodup ∧
      (order.filterMap (fun n => (lookupA c.dllist.heap n).map (·.data.key))).Perm
        (c.dict.map Prod.fst) ∧
      (∀ k n, (k, n) ∈ c.dict →
        ∃ nd, lookupA c.dllist.heap n = some nd ∧ nd.data.key = k) := by
  obtain ⟨order, hinv⟩ := Dll.reachable_inv hc
  refine ⟨order, hinv.rep.chain_ok, hinv.rep.front_ok, hinv.rep.back_ok, hinv.rep.nodup,
    hinv.dict_perm, hinv.dict_keys_nodup, ?_, hinv.dict_resolve⟩
  have e1 := (hinv.dict_perm.symm).filterMap
    (fun n => (lookupA c.dllist.heap n).map (·.data.key))
  rw [Dll.filterMap_keys_eq hinv.dict_resolve] at e1
  exact e1

/-- Witness for C6 at the reachable capacity-1 cache holding key `1`. -/
theorem c6_index_list_consistency_witness :
    ∃ order : List Nat,
      Dll.chainSeg sampleD1.dllist.heap none order none ∧
      sampleD1.dllist.front = Dll.headOr order none ∧
      sampleD1.dllist.back = Dll.lastOr order none ∧
      order.Nodup ∧
      (sampleD1.dict.map Prod.snd).Perm order ∧
      (sampleD1.dict.map Prod.fst).Nodup ∧
      (order.filterMap (fun n => (lookupA sampleD1.dllist.heap n).map (·.data.key))).Perm
        (sampleD1.dict.map Prod.fst) ∧
      (∀ k n, (k, n) ∈ sampleD1.dict →
        ∃ nd, lookupA sampleD1.dllist.heap n = some nd ∧ nd.data.key = k) :=
  c6_index_list_consistency sampleD1
    (Dll.Reachable.putStep _ 1 10 _ (Dll.Reachable.init 1 _ rfl) (by rfl))

/-- C9: `pop_back`/`pop_front` raise `IsEmptyError` exactly when the list
has zero nodes, and this branch is unreachable through the cache's public
interface: on a full reachable cache the eviction `pop_back` succeeds, and
`put` never surfaces `IsEmptyError` from any reachable state. -/
theorem c9_empty_error_internal {K V : Type} [DecidableEq K] :
    (∀ (l : Dll.DLList K V) (order : List Nat), Dll.ListRep l order →
      ((l.pop_back = .error .isEmptyError) ↔ order = []) ∧
      ((l.pop_front = .error .isEmptyError) ↔ order = [])) ∧
    (∀ c : Dll.LRUCache K V, Dll.Reachable c → c.full = true →
      ∃ m l', c.dllist.pop_back = .ok (m, l')) ∧
    (∀ (c : Dll.LRUCache K V) (k : K) (v : V), Dll.Reachable c →
      Dll.LRUCache.put c k v ≠ .error .isEmptyError) := by
  refine ⟨?_, ?_, ?_⟩
  · intro l order hrep
    have hbackIff : l.back = none ↔ order = [] := by
      rw [hrep.back_ok]
      exact Dll.lastOr_none_iff
    have hfrontIff : l.front = none ↔ order = [] := by
      rw [hrep.front_ok]
      cases order with
      | nil => simp [Dll.headOr]
      | cons a rest => simp [Dll.headOr]
    constructor
    · constructor
      · intro hpb
        unfold Dll.DLList.pop_back at hpb
        cases hb : l.back with
        | none => exact hbackIff.mp hb
        | some nB =>
          rw [hb] at hpb
          simp at hpb
      · intro h0
        have hb : l.back = none := hbackIff.mpr h0
        unfold Dll.DLList.pop_back
        rw [hb]
    · constructor
      · intro hpf
        unfold Dll.DLList.pop_front at hpf
        cases hf : l.front with
        | none => exact hfrontIff.mp hf
        | some nF =>
          rw [hf] at hpf
          simp at hpf
      · intro h0
        have hf : l.front = none := hfrontIff.mpr h0
        unfold Dll.DLList.pop_front
        rw [hf]
  · intro c hc hfull
    obtain ⟨order, hinv⟩ := Dll.reachable_inv hc
    have hge : (c.dict.length : Int) ≥ c.max_size := Dll.full_iff.mp hfull
    have hmaxpos := hinv.max_pos
    have hlen1 : 1 ≤ c.dict.length := by omega
    have hordne : order ≠ [] := by
      intro h0
      have hlen := hinv.dict_perm.length_eq
      rw [h0, List.length_map, List.length_nil] at hlen
      omega
    obtain ⟨nB, -, hlast⟩ := Dll.lastOr_mem hordne none
    have hb : c.dllist.back = some nB := by rw [hinv.rep.back_ok, hlast]
    refine ⟨nB, c.dllist.eject nB, ?_⟩
    unfold Dll.DLList.pop_back
    rw [hb]
  · intro c k v hc
    obtain ⟨order, hinv⟩ := Dll.reachable_inv hc
    obtain ⟨c', order', heq, -⟩ := Dll.put_inv hinv k v
    rw [heq]
    intro hcontra
    cases hcontra

/-- Witness for C9 at the full reachable capacity-1 cache holding key `1`,
whose recency order is the single node `0`. -/
theorem c9_empty_error_internal_witness :
    ((sampleD1.dllist.pop_back = .error .isEmptyError) ↔ ([0] : List Nat) = []) ∧
    ((sampleD1.dllist.pop_front = .error .isEmptyError) ↔ ([0] : List Nat) = []) ∧
    (∃ m l', sampleD1.dllist.pop_back = .ok (m, l')) ∧
    Dll.LRUCache.put sampleD1 2 20 ≠ .error .isEmptyError := by
  have hrep : Dll.ListRep sampleD1.dllist [0] :=
    ⟨⟨⟨⟨1, 10⟩, none, none⟩, rfl, rfl, rfl, trivial⟩, rfl, rfl, List.nodup_singleton _⟩
  have hreach : Dll.Reachable sampleD1 :=
    Dll.Reachable.putStep _ 1 10 _ (Dll.Reachable.init 1 _ rfl) (by rfl)
  obtain ⟨h1, h2⟩ := c9_empty_error_internal.1 sampleD1.dllist [0] hrep
  exact ⟨h1, h2, c9_empty_error_internal.2.1 sampleD1 hreach rfl,
    c9_empty_error_internal.2.2 sampleD1 2 20 hreach⟩

/-- C10: a `get` with an explicitly supplied default on a *present* key
behaves exactly like a `get` without a default: it returns the cached value
(the default is ignored) and still promotes the key's slot to
most-recently-used — in both implementations (in `main.py`, promotion means
the entry moves to the last, most-recent, dictionary position). -/
theorem c10_get_default_hit {K V : Type} [DecidableEq K] :
    (∀ (c : Dll.LRUCache K V) (k : K) (n : Nat) (nd : Dll.DLListNode K V) (d : V),
      lookupA c.dict k = some n → lookupA c.dllist.heap n = some nd →
      Dll.LRUCache.get c k (some d) = Dll.LRUCache.get c k none ∧
      Dll.LRUCache.get c k none =
        .ok (nd.data.value, { c with dllist := c.dllist.move_to_front n }) ∧
      (c.dllist.move_to_front n).front = some n) ∧
    (∀ (cm : Main.LRUCache K V) (k : K) (v : V) (d : V),
      lookupA cm.dict k = some v → (cm.dict.map Prod.fst).Nodup →
      Main.LRUCache.get cm k (some d) = Main.LRUCache.get cm k none ∧
      Main.LRUCache.get cm k none =
        .ok (v, { cm with dict := setA (removeA cm.dict k) k v }) ∧
      (setA (removeA cm.dict k) k v).getLast? = some (k, v)) := by
  constructor
  · intro c k n nd d hk hnd
    have hdata := Dll.move_to_front_heap_data c.dllist n n
    rw [hnd] at hdata
    obtain ⟨nd', hnd', hval⟩ : ∃ nd', lookupA (c.dllist.move_to_front n).heap n = some nd' ∧
        nd'.data = nd.data := by
      cases hl : lookupA (c.dllist.move_to_front n).heap n with
      | none => rw [hl] at hdata; cases hdata
      | some x =>
        rw [hl] at hdata
        exact ⟨x, rfl, Option.some.inj hdata⟩
    have hv : nd'.data.value = nd.data.value := congrArg Dll.Item.value hval
    refine ⟨?_, ?_, Dll.move_to_front_front _ _⟩ <;>
      simp [Dll.LRUCache.get, hk, hnd', hv]
  · intro cm k v d hk hnd
    have hrem : lookupA (removeA cm.dict k) k = none := lookupA_removeA_self hnd
    refine ⟨?_, ?_, ?_⟩
    · simp [Main.LRUCache.get, hk]
    · simp [Main.LRUCache.get, hk]
    · rw [setA_absent _ hrem]
      exact List.getLast?_concat _

/-- Witness for C10 at concrete single-entry caches holding key `1`. -/
theorem c10_get_default_hit_witness :
    (Dll.LRUCache.get sampleD1 1 (some 99) = Dll.LRUCache.get sampleD1 1 none ∧
      Dll.LRUCache.get sampleD1 1 none =
        .ok (10, { sampleD1 with dllist := sampleD1.dllist.move_to_front 0 }) ∧
      (sampleD1.dllist.move_to_front 0).front = some 0) ∧
    (Main.LRUCache.get sampleM1 1 (some 99) = Main.LRUCache.get sampleM1 1 none ∧
      Main.LRUCache.get sampleM1 1 none =
        .ok (10, { sampleM1 with dict := setA (removeA sampleM1.dict 1) 1 10 }) ∧
      (setA (removeA sampleM1.dict 1) 1 10).getLast? = some (1, 10)) :=
  ⟨c10_get_default_hit.1 sampleD1 1 0 ⟨⟨1, 10⟩, none, none⟩ 99 rfl rfl,
    c10_get_default_hit.2 sampleM1 1 10 99 rfl (by decide)⟩
